import Mathlib

/-!
Verification of the `FormattedContent` text formatter from
`src/components/FormattedContent.tsx`.

The formatter converts loosely structured markdown-like text into a sequence
of display nodes (paragraphs, headings, bullet and numbered lists, with plain
and emphasized inline spans).  Each JavaScript regex replacement pass is
embedded here as a structurally recursive character-list transducer with the
exact left-to-right, leftmost-match, greedy/lazy semantics of the original
`String.replace` calls, so that every definition is executable by `decide`.
-/

set_option maxHeartbeats 1000000

namespace SmartCrop

/-- Whitespace characters matched by the JavaScript `\s` class and `trim`
(restricted to the ASCII range, which is all the formatter's inputs use). -/
def jsWs (c : Char) : Bool :=
  c == ' ' || c == '\t' || c == '\n' || c == '\r' || c == '\x0b' || c == '\x0c'

/-- Inline span of formatted text: plain text or emphasized (bold) text. -/
inductive InlineSpan where
  | text (s : String)
  | emph (s : String)
deriving DecidableEq, Repr

/-- Structured display node produced by the formatter: one paragraph, heading,
bullet list or numbered list. -/
inductive ContentNode where
  | paragraph (spans : List InlineSpan)
  | heading (level : Nat) (spans : List InlineSpan)
  | bulletList (items : List (List InlineSpan))
  | numberedList (items : List (List InlineSpan))
deriving DecidableEq, Repr

/-- Scanner state for the first cleaning pass `replace(/^\*\s+/gm, '• ')`:
either scanning normally (tracking whether the position is at a line start)
or inside the greedy whitespace run of a match (tracking whether the last
consumed character was a newline, which decides whether the position after
the run is a line start). -/
inductive P1State where
  | normal (atStart : Bool)
  | inRun (lastNl : Bool)

/-- Pass 1 of `cleanContent`: `replace(/^\*\s+/gm, '• ')`.  A line-leading
asterisk followed by one or more whitespace characters becomes a bullet
marker and a single space. -/
def p1m : P1State → List Char → List Char
  | .normal atStart, c :: rest =>
    if atStart && c == '*' then
      match rest with
      | [] => ['*']
      | d :: rest2 =>
        if jsWs d then '•' :: ' ' :: p1m (.inRun (d == '\n')) rest2
        else '*' :: d :: p1m (.normal (d == '\n')) rest2
    else c :: p1m (.normal (c == '\n')) rest
  | .inRun lastNl, c :: rest =>
    if jsWs c then p1m (.inRun (c == '\n')) rest
    else if lastNl && c == '*' then
      match rest with
      | [] => ['*']
      | d :: rest2 =>
        if jsWs d then '•' :: ' ' :: p1m (.inRun (d == '\n')) rest2
        else '*' :: d :: p1m (.normal (d == '\n')) rest2
    else c :: p1m (.normal (c == '\n')) rest
  | _, [] => []

/-- Pass 2 of `cleanContent`: `replace(/\*{3,}/g, '')`.  Maximal runs of
three or more asterisks are removed; the counter `k` holds the pending run
length. -/
def p2m (k : Nat) : List Char → List Char
  | [] => if 3 ≤ k then [] else List.replicate k '*'
  | c :: rest =>
    if c == '*' then p2m (k + 1) rest
    else (if 3 ≤ k then [] else List.replicate k '*') ++ c :: p2m 0 rest

/-- Pass 3 of `cleanContent`: `replace(/\*\s*\*\s*\*/g, '')`.  The state
buffers a partially matched `* ws* * ws*` candidate (whitespace runs stored
reversed); a failing character flushes the buffer verbatim, which is faithful
because no buffered character other than the leading asterisks can start a
match. -/
def p3s : Option (List Char × Option (List Char)) → List Char → List Char
  | none, [] => []
  | none, c :: rest =>
    if c == '*' then p3s (some ([], none)) rest else c :: p3s none rest
  | some (ws1, none), [] => '*' :: ws1.reverse
  | some (ws1, none), c :: rest =>
    if c == '*' then p3s (some (ws1, some [])) rest
    else if jsWs c then p3s (some (c :: ws1, none)) rest
    else '*' :: (ws1.reverse ++ c :: p3s none rest)
  | some (ws1, some ws2), [] => '*' :: (ws1.reverse ++ '*' :: ws2.reverse)
  | some (ws1, some ws2), c :: rest =>
    if c == '*' then p3s none rest
    else if jsWs c then p3s (some (ws1, c :: ws2)) rest
    else '*' :: (ws1.reverse ++ '*' :: ws2.reverse ++ c :: p3s none rest)

/-- Pass 4 of `cleanContent`: `replace(/\s{3,}/g, '  ')`.  Maximal whitespace
runs of length at least three collapse to exactly two spaces; shorter runs
are kept verbatim (the buffer holds the current run, reversed). -/
def p4m (buf : List Char) : List Char → List Char
  | [] => if 3 ≤ buf.length then [' ', ' '] else buf.reverse
  | c :: rest =>
    if jsWs c then p4m (c :: buf) rest
    else (if 3 ≤ buf.length then [' ', ' '] else buf.reverse) ++ c :: p4m [] rest

/-- Pass 5 of `cleanContent`: `replace(/\*+:/g, ':')`.  A maximal asterisk
run immediately followed by a colon collapses to the bare colon. -/
def p5m (k : Nat) : List Char → List Char
  | [] => List.replicate k '*'
  | c :: rest =>
    if c == '*' then p5m (k + 1) rest
    else if c == ':' then ':' :: p5m 0 rest
    else List.replicate k '*' ++ c :: p5m 0 rest

/-- Pass 6 of `cleanContent`: `replace(/:\*+/g, ':')`.  Asterisks directly
following a colon are removed (the flag records whether the scanner sits
right after a colon, possibly with asterisks already deleted). -/
def p6m (afterColon : Bool) : List Char → List Char
  | [] => []
  | c :: rest =>
    if c == ':' then ':' :: p6m true rest
    else if afterColon && c == '*' then p6m true rest
    else c :: p6m false rest

/-- The `cleanContent` pre-cleaning pass: the six regex replacements of the
source, applied in order to the whole text before line splitting. -/
def cleanContent (l : List Char) : List Char :=
  p6m false (p5m 0 (p4m [] (p3s none (p2m 0 (p1m (.normal true) l)))))

/-- Split a character list into lines at newline characters, exactly like
JavaScript `String.split('\n')` (an empty input gives one empty line). -/
def splitLines : List Char → List (List Char)
  | [] => [[]]
  | c :: rest =>
    if c == '\n' then [] :: splitLines rest
    else
      match splitLines rest with
      | [] => [[c]]
      | l :: ls => (c :: l) :: ls

/-- Drop a trailing whitespace run, keeping everything before it. -/
def dropTrailWs : List Char → List Char
  | [] => []
  | c :: rest =>
    match dropTrailWs rest with
    | [] => if jsWs c then [] else [c]
    | r => c :: r

/-- JavaScript `String.trim`: drop leading and trailing whitespace. -/
def trimL (l : List Char) : List Char :=
  dropTrailWs (l.dropWhile jsWs)

/-- Shared tail of the line classifiers: `\s+(.+)$` after a marker.  The
capture is everything after the maximal whitespace run; when the remainder is
empty the regex engine backtracks one whitespace character into the capture
(dead code on trimmed lines, but modelled faithfully). -/
def captureAfterWs (rest : List Char) : Option (List Char) :=
  let run := rest.takeWhile jsWs
  let r := rest.dropWhile jsWs
  if run.isEmpty then none
  else if r.isEmpty then
    if 2 ≤ run.length then some [run.getLastD ' '] else none
  else some r

/-- Classifier for `/^##\s+(.+)$/` (a level-2 heading line). -/
def matchH2 : List Char → Option (List Char)
  | c1 :: c2 :: rest =>
    if c1 = '#' ∧ c2 = '#' then captureAfterWs rest else none
  | _ => none

/-- Classifier for `/^###\s+(.+)$/` (a level-3 heading line). -/
def matchH3 : List Char → Option (List Char)
  | c1 :: c2 :: c3 :: rest =>
    if c1 = '#' ∧ c2 = '#' ∧ c3 = '#' then captureAfterWs rest else none
  | _ => none

/-- Classifier for `/^\*\*([^*]+)\*\*:?\s*$/` (a bold pseudo-header line):
the whole line is one `**`-wrapped run, optionally followed by a colon and
trailing whitespace. -/
def matchBoldHeader : List Char → Option (List Char)
  | c1 :: c2 :: rest =>
    if c1 = '*' ∧ c2 = '*' then
      let body := rest.takeWhile (fun c => !(c == '*'))
      let r := rest.dropWhile (fun c => !(c == '*'))
      if body.isEmpty then none
      else
        match r with
        | d1 :: d2 :: tail =>
          if d1 = '*' ∧ d2 = '*' then
            let tail2 :=
              match tail with
              | ':' :: u => u
              | u => u
            if tail2.all jsWs then some body else none
          else none
        | _ => none
    else none
  | _ => none

/-- Classifier for `/^[-•]\s+(.+)$/` (a bullet line). -/
def matchBullet : List Char → Option (List Char)
  | c :: rest => if c = '-' ∨ c = '•' then captureAfterWs rest else none
  | [] => none

/-- Classifier for `/^\*\s+(.+)$/` (an asterisk bullet line). -/
def matchAstBullet : List Char → Option (List Char)
  | c :: rest => if c = '*' then captureAfterWs rest else none
  | [] => none

/-- Classifier for `/^\d+[.)]\s+(.+)$/` (a numbered-list line). -/
def matchNumbered (t : List Char) : Option (List Char) :=
  let ds := t.takeWhile Char.isDigit
  let r := t.dropWhile Char.isDigit
  if ds.isEmpty then none
  else
    match r with
    | c :: rest => if c = '.' ∨ c = ')' then captureAfterWs rest else none
    | [] => none

/-- `replace(/^\*+\s*/, '')`: strip one leading asterisk run together with
the whitespace run following it. -/
def stripLeadStarsWs : List Char → List Char
  | [] => []
  | c :: rest =>
    if c = '*' then (rest.dropWhile (fun d => d == '*')).dropWhile jsWs
    else c :: rest

/-- `replace(/\*+$/, '')`: strip one trailing asterisk run. -/
def stripTrailStars (l : List Char) : List Char :=
  (l.reverse.dropWhile (fun d => d == '*')).reverse

/-- `replace(/\s*\*+$/, '')`: strip one trailing asterisk run together with
the whitespace run before it (only when the text actually ends in an
asterisk). -/
def stripTrailWsStars (l : List Char) : List Char :=
  match l.reverse with
  | c :: rest =>
    if c = '*' then ((rest.dropWhile (fun d => d == '*')).dropWhile jsWs).reverse
    else l
  | [] => l

/-- First pass of `formatInlineText`: `replace(/\*\*\*+/g, '**')`, collapsing
maximal asterisk runs of length at least three to a double run. -/
def fiAm (k : Nat) : List Char → List Char
  | [] => if 3 ≤ k then ['*', '*'] else List.replicate k '*'
  | c :: rest =>
    if c == '*' then fiAm (k + 1) rest
    else (if 3 ≤ k then ['*', '*'] else List.replicate k '*') ++ c :: fiAm 0 rest

/-- Second pass of `formatInlineText`: `replace(/(?<!\*)\*(?!\*)/g, '')`,
removing every asterisk which is a maximal run of length exactly one. -/
def fiBm (k : Nat) : List Char → List Char
  | [] => if k = 1 then [] else List.replicate k '*'
  | c :: rest =>
    if c == '*' then fiBm (k + 1) rest
    else (if k = 1 then [] else List.replicate k '*') ++ c :: fiBm 0 rest

/-- Search for the lazy closing `**` of `/\*\*(.+?)\*\*/`: the earliest
adjacent asterisk pair in the remaining text, with the (nonempty, reversed)
capture accumulated in `acc`. -/
def findClose2 (acc : List Char) : List Char → Option (List Char × List Char)
  | c1 :: c2 :: rest =>
    if c1 = '*' ∧ c2 = '*' then some (acc.reverse, rest)
    else findClose2 (c1 :: acc) (c2 :: rest)
  | _ => none

/-- Find the closing `**` for an opened bold run: the capture takes at least
one character, then the earliest adjacent asterisk pair closes it. -/
def findClose : List Char → Option (List Char × List Char)
  | [] => none
  | c :: rest => findClose2 [c] rest

/-- Wrap a possibly empty character run as the pending plain-text part pushed
by the bold-extraction loop (nothing is pushed for an empty run). -/
def pendPlain (l : List Char) : List InlineSpan :=
  if l.isEmpty then [] else [.text (String.mk l)]

/-- The bold-extraction loop of `formatInlineText` over `/\*\*(.+?)\*\*/g`:
interleaves plain parts and emphasis parts.  When an opening `**` has no
closing pair, no later match can exist either (any later closing pair would
itself have been found), so the whole remainder is plain.  Fuel is the input
length; it only pads recursion after a deleted match. -/
def boldScanF : Nat → List Char → List Char → List InlineSpan
  | 0, acc, l => pendPlain (acc.reverse ++ l)
  | _ + 1, acc, [] => pendPlain acc.reverse
  | _ + 1, acc, [c] => pendPlain (acc.reverse ++ [c])
  | fuel + 1, acc, c1 :: c2 :: rest =>
    if c1 = '*' ∧ c2 = '*' then
      match findClose rest with
      | some (cap, after) =>
        pendPlain acc.reverse ++ .emph (String.mk cap) :: boldScanF fuel [] after
      | none => pendPlain (acc.reverse ++ c1 :: c2 :: rest)
    else boldScanF fuel (c1 :: acc) (c2 :: rest)

/-- The `formatInlineText` helper of the source: normalize asterisk runs,
drop isolated asterisks, then split the text into plain and emphasis spans;
with no bold match the whole cleaned text is one plain span. -/
def formatInlineText (t : List Char) : List InlineSpan :=
  let u := fiBm 0 (fiAm 0 t)
  let ps := boldScanF u.length [] u
  if ps.isEmpty then [.text (String.mk u)] else ps

/-- The two list flavours tracked by the formatter's `listType` variable. -/
inductive LType where
  | bullet
  | numbered
deriving DecidableEq, Repr

/-- Accumulation state of the line-processing loop: emitted nodes, pending
list item texts, whether a list is open, and its type. -/
structure FmtState where
  elems : List ContentNode
  items : List (List Char)
  isInList : Bool
  listType : LType
deriving DecidableEq, Repr

/-- Build the list node emitted by `flushList` for the recorded list type. -/
def listNode (ty : LType) (items : List (List Char)) : ContentNode :=
  match ty with
  | .bullet => .bulletList (items.map formatInlineText)
  | .numbered => .numberedList (items.map formatInlineText)

/-- The `flushList` helper: when items are pending, append the finished list
node and clear the buffer; otherwise leave the state untouched. -/
def flushList (st : FmtState) : FmtState :=
  if st.items.isEmpty then st
  else
    { elems := st.elems ++ [listNode st.listType st.items]
      items := []
      isInList := false
      listType := st.listType }

/-- The text stored for a matched bullet item:
`replace(/^\*+\s*/, '').replace(/\*+$/, '')` applied to the capture. -/
def bulletItemText (cap : List Char) : List Char :=
  stripTrailStars (stripLeadStarsWs cap)

/-- The text of a paragraph line:
`replace(/^\*+\s*/, '').replace(/\s*\*+$/, '')` applied to the trimmed
line. -/
def paragraphText (t : List Char) : List Char :=
  stripTrailWsStars (stripLeadStarsWs t)

/-- Process one line of the cleaned content, in the priority order of the
source: blank, `##` heading, `###` heading, bold pseudo-header, bullet,
numbered, paragraph. -/
def processLine (st : FmtState) (line : List Char) : FmtState :=
  let t := trimL line
  if t.isEmpty then flushList st
  else
    match matchH2 t with
    | some cap =>
      let st2 := flushList st
      { st2 with elems := st2.elems ++ [.heading 2 (formatInlineText cap)] }
    | none =>
    match matchH3 t with
    | some cap =>
      let st2 := flushList st
      { st2 with elems := st2.elems ++ [.heading 3 (formatInlineText cap)] }
    | none =>
    match matchBoldHeader t with
    | some cap =>
      let st2 := flushList st
      { st2 with elems :=
          st2.elems ++ [.heading 3 [.text (String.mk (cap.filter (fun c => !(c == '*'))))]] }
    | none =>
    match (matchBullet t).orElse (fun _ => matchAstBullet t) with
    | some cap =>
      let st2 := if st.isInList then st
                 else { flushList st with isInList := true, listType := .bullet }
      { st2 with items := st2.items ++ [bulletItemText cap] }
    | none =>
    match matchNumbered t with
    | some cap =>
      let st2 := if st.isInList then st
                 else { flushList st with isInList := true, listType := .numbered }
      { st2 with items := st2.items ++ [cap] }
    | none =>
      let st2 := flushList st
      let u := paragraphText t
      if u.isEmpty then st2
      else { st2 with elems := st2.elems ++ [.paragraph (formatInlineText u)] }

/-- The initial accumulation state of the formatter. -/
def initState : FmtState :=
  { elems := [], items := [], isInList := false, listType := .bullet }

/-- The node sequence produced for a non-empty content string: clean, split
into lines, process each line, and flush any remaining list. -/
def formatL (l : List Char) : List ContentNode :=
  (flushList ((splitLines (cleanContent l)).foldl processLine initState)).elems

/-- The `FormattedContent` component as a function from the content string to
the ordered node sequence it renders (an empty string renders nothing). -/
def format (s : String) : List ContentNode :=
  if s.data.isEmpty then [] else formatL s.data

/-- A character that no cleaning pass can touch: not an asterisk, not a
colon, and not whitespace. -/
abbrev plainChar (c : Char) : Prop :=
  c ≠ '*' ∧ c ≠ ':' ∧ jsWs c = false

/-- A list-item text made only of plain characters (and nonempty), so that
the pre-cleaning pass leaves its line untouched. -/
abbrev plainItem (l : List Char) : Prop :=
  l ≠ [] ∧ ∀ c ∈ l, plainChar c

/-- The raw bullet line carrying a given item text. -/
def bulletLine (l : List Char) : List Char :=
  '-' :: ' ' :: l

/-- Join lines with single newline separators (inverse of `splitLines` on
newline-free lines). -/
def joinL : List (List Char) → List Char
  | [] => []
  | [l] => l
  | l :: ls => l ++ '\n' :: joinL ls

/-- No three consecutive whitespace characters occur, so the whitespace
collapsing pass is the identity. -/
def noTripleWs : List Char → Prop
  | a :: b :: c :: rest =>
    ¬(jsWs a = true ∧ jsWs b = true ∧ jsWs c = true) ∧ noTripleWs (b :: c :: rest)
  | _ => True

/-- The list is nonempty and its last character is not whitespace. -/
def lastNonWs : List Char → Prop
  | [] => False
  | [c] => jsWs c = false
  | _ :: rest => lastNonWs rest

/-! ### Identity lemmas for the cleaning passes -/

theorem p1m_false_cons (c : Char) (l : List Char) :
    p1m (.normal false) (c :: l) = c :: p1m (.normal (c == '\n')) l := by
  rw [p1m.eq_def]
  exact rfl

theorem p1m_true_cons_nonStar (c : Char) (l : List Char) (h1 : (c == '*') = false) :
    p1m (.normal true) (c :: l) = c :: p1m (.normal (c == '\n')) l := by
  rw [p1m.eq_def]
  simp [h1]

theorem p1m_false_noNl (l : List Char) (h : ∀ c ∈ l, c ≠ '\n') :
    p1m (.normal false) l = l := by
  induction l with
  | nil => rfl
  | cons c rest ih =>
    have hc : (c == '\n') = false :=
      beq_eq_false_iff_ne.mpr (h c (List.mem_cons_self c rest))
    rw [p1m_false_cons, hc]
    exact congrArg (c :: ·) (ih fun d hd => h d (List.mem_cons_of_mem c hd))

theorem p1m_true_nonStarHead (c : Char) (rest : List Char) (hc : c ≠ '*')
    (hcn : c ≠ '\n') (h : ∀ d ∈ rest, d ≠ '\n') :
    p1m (.normal true) (c :: rest) = c :: rest := by
  have h1 : (c == '*') = false := beq_eq_false_iff_ne.mpr hc
  have h2 : (c == '\n') = false := beq_eq_false_iff_ne.mpr hcn
  rw [p1m_true_cons_nonStar c rest h1, h2]
  exact congrArg (c :: ·) (p1m_false_noNl rest h)

theorem p1m_true_star2 (R : List Char) (h : ∀ c ∈ R, c ≠ '\n') :
    p1m (.normal true) ('*' :: '*' :: R) = '*' :: '*' :: R := by
  have step : p1m (.normal true) ('*' :: '*' :: R) = '*' :: '*' :: p1m (.normal false) R := by
    rw [p1m.eq_def]
    exact rfl
  rw [step, p1m_false_noNl R h]

theorem p1m_false_append (l rest : List Char) (h : ∀ c ∈ l, c ≠ '\n') :
    p1m (.normal false) (l ++ '\n' :: rest) = l ++ '\n' :: p1m (.normal true) rest := by
  induction l with
  | nil =>
    rw [List.nil_append, List.nil_append, p1m.eq_def]
    exact rfl
  | cons c l2 ih =>
    have hc : (c == '\n') = false :=
      beq_eq_false_iff_ne.mpr (h c (List.mem_cons_self c l2))
    have ih2 := ih fun d hd => h d (List.mem_cons_of_mem c hd)
    rw [List.cons_append, p1m_false_cons, hc]
    exact congrArg (c :: ·) ih2

theorem p2m_zero_noStar_append (l rest : List Char) (h : ∀ c ∈ l, c ≠ '*') :
    p2m 0 (l ++ rest) = l ++ p2m 0 rest := by
  induction l with
  | nil => rfl
  | cons c l2 ih =>
    have hc : (c == '*') = false :=
      beq_eq_false_iff_ne.mpr (h c (List.mem_cons_self c l2))
    simp only [List.cons_append, p2m, hc, Bool.false_eq_true, if_false,
      List.replicate, Nat.le_zero, if_neg (by omega : ¬3 ≤ 0), List.nil_append]
    exact congrArg (c :: ·) (ih fun d hd => h d (List.mem_cons_of_mem c hd))

theorem p2m_zero_noStar (l : List Char) (h : ∀ c ∈ l, c ≠ '*') :
    p2m 0 l = l := by
  have h2 := p2m_zero_noStar_append l [] h
  simpa [p2m] using h2

theorem p2m_star2_cons (c : Char) (rest : List Char) (hc : c ≠ '*') :
    p2m 0 ('*' :: '*' :: c :: rest) = '*' :: '*' :: c :: p2m 0 rest := by
  have h : (c == '*') = false := beq_eq_false_iff_ne.mpr hc
  simp [p2m, h, List.replicate, show ¬(3 ≤ 2) by omega]

theorem p2m_star2_end : p2m 0 ['*', '*'] = ['*', '*'] := by decide

theorem p3s_none_noStar_append (l rest : List Char) (h : ∀ c ∈ l, c ≠ '*') :
    p3s none (l ++ rest) = l ++ p3s none rest := by
  induction l with
  | nil => rfl
  | cons c l2 ih =>
    have hc : (c == '*') = false :=
      beq_eq_false_iff_ne.mpr (h c (List.mem_cons_self c l2))
    simp only [List.cons_append, p3s, hc, Bool.false_eq_true, if_false]
    exact congrArg (c :: ·) (ih fun d hd => h d (List.mem_cons_of_mem c hd))

theorem p3s_none_noStar (l : List Char) (h : ∀ c ∈ l, c ≠ '*') :
    p3s none l = l := by
  have h2 := p3s_none_noStar_append l [] h
  simpa [p3s] using h2

theorem p3s_star2_cons (c : Char) (rest : List Char) (hc : c ≠ '*')
    (hw : jsWs c = false) :
    p3s none ('*' :: '*' :: c :: rest) = '*' :: '*' :: c :: p3s none rest := by
  have h : (c == '*') = false := beq_eq_false_iff_ne.mpr hc
  simp [p3s, h, hw]

theorem p3s_star2_end : p3s none ['*', '*'] = ['*', '*'] := by decide

theorem p5m_zero_noStar_append (l rest : List Char) (h : ∀ c ∈ l, c ≠ '*') :
    p5m 0 (l ++ rest) = l ++ p5m 0 rest := by
  induction l with
  | nil => rfl
  | cons c l2 ih =>
    have hc : (c == '*') = false :=
      beq_eq_false_iff_ne.mpr (h c (List.mem_cons_self c l2))
    have ih2 := ih fun d hd => h d (List.mem_cons_of_mem c hd)
    by_cases hcol : c = ':'
    · subst hcol
      simp only [List.cons_append, p5m, show ((':' : Char) == '*') = false from rfl,
        Bool.false_eq_true, if_false, show ((':' : Char) == ':') = true from rfl, if_true]
      exact congrArg (':' :: ·) ih2
    · have hc2 : (c == ':') = false := beq_eq_false_iff_ne.mpr hcol
      simp only [List.cons_append, p5m, hc, Bool.false_eq_true, if_false, hc2,
        List.replicate, List.nil_append]
      exact congrArg (c :: ·) ih2

theorem p5m_zero_noStar (l : List Char) (h : ∀ c ∈ l, c ≠ '*') :
    p5m 0 l = l := by
  have h2 := p5m_zero_noStar_append l [] h
  simpa [p5m] using h2

theorem p5m_star2_cons (c : Char) (rest : List Char) (hc : c ≠ '*')
    (hcol : c ≠ ':') :
    p5m 0 ('*' :: '*' :: c :: rest) = '*' :: '*' :: c :: p5m 0 rest := by
  have h : (c == '*') = false := beq_eq_false_iff_ne.mpr hc
  have h2 : (c == ':') = false := beq_eq_false_iff_ne.mpr hcol
  simp [p5m, h, h2, List.replicate]

theorem p5m_star2_end : p5m 0 ['*', '*'] = ['*', '*'] := by decide

theorem p6m_noStar (l : List Char) (h : ∀ c ∈ l, c ≠ '*') (b : Bool) :
    p6m b l = l := by
  induction l generalizing b with
  | nil => rfl
  | cons c rest ih =>
    have hc : (c == '*') = false :=
      beq_eq_false_iff_ne.mpr (h c (List.mem_cons_self c rest))
    have ih2 := fun b => ih (fun d hd => h d (List.mem_cons_of_mem c hd)) b
    by_cases hcol : c = ':'
    · subst hcol
      simp only [p6m, show ((':' : Char) == ':') = true from rfl, if_true]
      exact congrArg (':' :: ·) (ih2 true)
    · have hc2 : (c == ':') = false := beq_eq_false_iff_ne.mpr hcol
      simp only [p6m, hc2, Bool.false_eq_true, if_false, hc, Bool.and_false]
      exact congrArg (c :: ·) (ih2 false)

theorem p6m_false_noColon (l : List Char) (h : ∀ c ∈ l, c ≠ ':') :
    p6m false l = l := by
  induction l with
  | nil => rfl
  | cons c rest ih =>
    have hc : (c == ':') = false :=
      beq_eq_false_iff_ne.mpr (h c (List.mem_cons_self c rest))
    simp only [p6m, hc, Bool.false_eq_true, if_false, Bool.false_and]
    exact congrArg (c :: ·) (ih fun d hd => h d (List.mem_cons_of_mem c hd))

theorem fiAm_zero_noStar (l : List Char) (h : ∀ c ∈ l, c ≠ '*') :
    fiAm 0 l = l := by
  induction l with
  | nil => rfl
  | cons c rest ih =>
    have hc : (c == '*') = false :=
      beq_eq_false_iff_ne.mpr (h c (List.mem_cons_self c rest))
    simp only [fiAm, hc, Bool.false_eq_true, if_false, if_neg (by omega : ¬3 ≤ 0),
      List.replicate, List.nil_append]
    exact congrArg (c :: ·) (ih fun d hd => h d (List.mem_cons_of_mem c hd))

theorem fiBm_zero_noStar (l : List Char) (h : ∀ c ∈ l, c ≠ '*') :
    fiBm 0 l = l := by
  induction l with
  | nil => rfl
  | cons c rest ih =>
    have hc : (c == '*') = false :=
      beq_eq_false_iff_ne.mpr (h c (List.mem_cons_self c rest))
    simp only [fiBm, hc, Bool.false_eq_true, if_false, if_neg (by omega : ¬0 = 1),
      List.replicate, List.nil_append]
    exact congrArg (c :: ·) (ih fun d hd => h d (List.mem_cons_of_mem c hd))

theorem boldScanF_noStar (fuel : Nat) (acc l : List Char) (h : ∀ c ∈ l, c ≠ '*') :
    boldScanF fuel acc l = pendPlain (acc.reverse ++ l) := by
  induction fuel generalizing acc l with
  | zero => rfl
  | succ n ih =>
    match l with
    | [] => simp [boldScanF]
    | [c] => simp [boldScanF]
    | c1 :: c2 :: rest =>
      have hc1 : c1 ≠ '*' := h c1 (List.mem_cons_self c1 _)
      rw [boldScanF, if_neg (fun hand => hc1 hand.1),
        ih (c1 :: acc) (c2 :: rest) (fun d hd => h d (List.mem_cons_of_mem c1 hd))]
      simp

theorem formatInlineText_noStar (l : List Char) (h : ∀ c ∈ l, c ≠ '*')
    (hne : l ≠ []) :
    formatInlineText l = [.text (String.mk l)] := by
  simp only [formatInlineText]
  rw [fiAm_zero_noStar l h, fiBm_zero_noStar l h, boldScanF_noStar l.length [] l h]
  simp [pendPlain, hne]

/-! ### Whitespace-run bookkeeping for the collapsing pass -/

theorem noTripleWs_short (l : List Char) (h : l.length ≤ 2) : noTripleWs l := by
  match l with
  | [] => trivial
  | [_] => trivial
  | [_, _] => trivial
  | a :: b :: c :: rest => simp at h

theorem noTripleWs_tail (c : Char) (l : List Char) (h : noTripleWs (c :: l)) :
    noTripleWs l := by
  match l with
  | [] => trivial
  | [_] => trivial
  | a :: b :: rest => exact h.2

theorem noTripleWs_append_right (l1 l2 : List Char) (h : noTripleWs (l1 ++ l2)) :
    noTripleWs l2 := by
  induction l1 with
  | nil => exact h
  | cons c t ih => exact ih (noTripleWs_tail c (t ++ l2) h)

theorem noTripleWs_cons_nonWs (x : Char) (l : List Char) (hx : jsWs x = false)
    (h : noTripleWs l) : noTripleWs (x :: l) := by
  match l with
  | [] => trivial
  | [_] => trivial
  | a :: b :: rest =>
    refine ⟨?_, h⟩
    intro hw
    rw [hx] at hw
    exact Bool.false_ne_true hw.1

theorem noTripleWs_ws1 (w x : Char) (l : List Char) (hx : jsWs x = false)
    (h : noTripleWs (x :: l)) : noTripleWs (w :: x :: l) := by
  match l with
  | [] => trivial
  | a :: rest =>
    refine ⟨?_, h⟩
    intro hw
    rw [hx] at hw
    exact Bool.false_ne_true hw.2.1

theorem noTripleWs_ws2 (w1 w2 x : Char) (l : List Char) (hx : jsWs x = false)
    (h : noTripleWs (x :: l)) : noTripleWs (w1 :: w2 :: x :: l) := by
  refine ⟨?_, noTripleWs_ws1 w2 x l hx h⟩
  intro hw
  rw [hx] at hw
  exact Bool.false_ne_true hw.2.2

theorem noTripleWs_of_noWs (l : List Char) (h : ∀ c ∈ l, jsWs c = false) :
    noTripleWs l := by
  induction l with
  | nil => trivial
  | cons c rest ih =>
    exact noTripleWs_cons_nonWs c rest (h c (List.mem_cons_self c rest))
      (ih fun d hd => h d (List.mem_cons_of_mem c hd))

theorem noTripleWs_append_noWs (l1 l2 : List Char)
    (h1 : ∀ c ∈ l1, jsWs c = false) (h2 : noTripleWs l2) :
    noTripleWs (l1 ++ l2) := by
  induction l1 with
  | nil => exact h2
  | cons c t ih =>
    exact noTripleWs_cons_nonWs c (t ++ l2) (h1 c (List.mem_cons_self c t))
      (ih fun d hd => h1 d (List.mem_cons_of_mem c hd))

theorem noTripleWs_prefix (l1 l2 : List Char) (h : noTripleWs (l1 ++ l2)) :
    noTripleWs l1 := by
  induction l1 with
  | nil => trivial
  | cons a t ih =>
    cases t with
    | nil => trivial
    | cons b t2 =>
      cases t2 with
      | nil => trivial
      | cons c rest =>
        exact ⟨h.1, ih h.2⟩

theorem noTripleWs_dropWhile (p : Char → Bool) (l : List Char)
    (h : noTripleWs l) : noTripleWs (l.dropWhile p) := by
  induction l with
  | nil => trivial
  | cons c rest ih =>
    rw [List.dropWhile_cons]
    by_cases hp : p c = true
    · simp only [hp, if_true]
      exact ih (noTripleWs_tail c rest h)
    · simp only [hp, if_false]
      exact h

/-! ### Lemmas about `dropTrailWs` and `trimL` -/

theorem dropTrailWs_cons (c : Char) (rest : List Char) :
    dropTrailWs (c :: rest) =
      match dropTrailWs rest with
      | [] => if jsWs c then [] else [c]
      | r => c :: r := by
  rw [dropTrailWs.eq_def]

theorem dropTrailWs_cons_nil (c : Char) (rest : List Char)
    (h : dropTrailWs rest = []) :
    dropTrailWs (c :: rest) = if jsWs c then [] else [c] := by
  rw [dropTrailWs_cons, h]

theorem dropTrailWs_cons_cons (c : Char) (rest : List Char) (r0 : Char)
    (rs : List Char) (h : dropTrailWs rest = r0 :: rs) :
    dropTrailWs (c :: rest) = c :: r0 :: rs := by
  rw [dropTrailWs_cons, h]

theorem dropTrailWs_prefix (l : List Char) : ∃ t, l = dropTrailWs l ++ t := by
  induction l with
  | nil => exact ⟨[], rfl⟩
  | cons c rest ih =>
    obtain ⟨t, ht⟩ := ih
    cases hdr : dropTrailWs rest with
    | nil =>
      rw [hdr] at ht
      by_cases hc : jsWs c
      · refine ⟨c :: rest, ?_⟩
        rw [dropTrailWs_cons_nil c rest hdr, if_pos hc]
        rfl
      · refine ⟨t, ?_⟩
        rw [dropTrailWs_cons_nil c rest hdr, if_neg hc]
        simpa using ht
    | cons r0 rs =>
      rw [hdr] at ht
      refine ⟨t, ?_⟩
      rw [dropTrailWs_cons_cons c rest r0 rs hdr]
      simpa using ht

theorem dropTrailWs_eq_self (l : List Char) (h : lastNonWs l) :
    dropTrailWs l = l := by
  induction l with
  | nil => exact absurd h (by simp [lastNonWs])
  | cons c rest ih =>
    cases rest with
    | nil =>
      have hc : jsWs c = false := h
      simp [dropTrailWs_cons, dropTrailWs, hc]
    | cons d rest2 =>
      have h2 : lastNonWs (d :: rest2) := h
      rw [dropTrailWs_cons, ih h2]

theorem dropTrailWs_lastNonWs (l : List Char) (hne : dropTrailWs l ≠ []) :
    lastNonWs (dropTrailWs l) := by
  induction l with
  | nil => exact absurd rfl hne
  | cons c rest ih =>
    cases hdr : dropTrailWs rest with
    | nil =>
      rw [dropTrailWs_cons_nil c rest hdr] at hne ⊢
      by_cases hc : jsWs c
      · rw [if_pos hc] at hne
        exact absurd rfl hne
      · rw [if_neg hc]
        have hc2 : jsWs c = false := by simpa using hc
        exact hc2
    | cons r0 rs =>
      rw [dropTrailWs_cons_cons c rest r0 rs hdr]
      have h2 := ih (by rw [hdr]; exact List.cons_ne_nil r0 rs)
      rw [hdr] at h2
      exact h2

theorem dropTrailWs_head (l : List Char) (hne : dropTrailWs l ≠ []) :
    (dropTrailWs l).head? = l.head? := by
  cases l with
  | nil => exact absurd rfl hne
  | cons c rest =>
    cases hdr : dropTrailWs rest with
    | nil =>
      rw [dropTrailWs_cons_nil c rest hdr] at hne ⊢
      by_cases hc : jsWs c
      · rw [if_pos hc] at hne
        exact absurd rfl hne
      · rw [if_neg hc]
        rfl
    | cons r0 rs =>
      rw [dropTrailWs_cons_cons c rest r0 rs hdr]
      rfl

theorem dropTrailWs_subset (l : List Char) (c : Char) (h : c ∈ dropTrailWs l) :
    c ∈ l := by
  induction l with
  | nil => simpa [dropTrailWs] using h
  | cons a rest ih =>
    cases hdr : dropTrailWs rest with
    | nil =>
      rw [dropTrailWs_cons_nil a rest hdr] at h
      by_cases ha : jsWs a
      · rw [if_pos ha] at h
        simp at h
      · rw [if_neg ha] at h
        simp at h
        simp [h]
    | cons r0 rs =>
      rw [dropTrailWs_cons_cons a rest r0 rs hdr] at h
      rcases List.mem_cons.mp h with h1 | h2
      · simp [h1]
      · exact List.mem_cons_of_mem a (ih (by rw [hdr]; exact h2))

/-! ### Identity and output shape of the whitespace-collapsing pass -/

theorem p4m_id (l : List Char) : ∀ buf : List Char,
    (∀ c ∈ buf, jsWs c = true) → buf.length ≤ 2 →
    noTripleWs (buf.reverse ++ l) → p4m buf l = buf.reverse ++ l := by
  induction l with
  | nil =>
    intro buf _ hlen _
    simp only [p4m]
    rw [if_neg (by omega)]
    simp
  | cons c rest ih =>
    intro buf hbuf hlen hNT
    by_cases hc : jsWs c
    · have hbuflen : buf.length ≤ 1 := by
        by_contra hgt
        have h2 : buf.length = 2 := by omega
        obtain ⟨b1, b0, rfl⟩ := List.length_eq_two.mp h2
        have hw : ¬(jsWs b0 = true ∧ jsWs b1 = true ∧ jsWs c = true) := by
          simpa using hNT.1
        exact hw ⟨hbuf b0 (by simp), hbuf b1 (by simp), hc⟩
      have step : p4m buf (c :: rest) = p4m (c :: buf) rest := by
        simp only [p4m]
        rw [if_pos hc]
      rw [step]
      have hres := ih (c :: buf)
        (by intro d hd; rcases List.mem_cons.mp hd with h1 | h2
            · exact h1 ▸ hc
            · exact hbuf d h2)
        (by simp; omega)
        (by rw [List.reverse_cons, List.append_assoc, List.singleton_append]; exact hNT)
      rw [hres, List.reverse_cons, List.append_assoc, List.singleton_append]
    · have step : p4m buf (c :: rest) =
          (if 3 ≤ buf.length then [' ', ' '] else buf.reverse) ++ c :: p4m [] rest := by
        simp only [p4m]
        rw [if_neg hc]
      rw [step, if_neg (by omega)]
      have hrest : noTripleWs rest :=
        noTripleWs_tail c rest (noTripleWs_append_right buf.reverse (c :: rest) hNT)
      rw [ih [] (by simp) (by simp) (by simpa using hrest)]
      simp

theorem p4m_zero_id (l : List Char) (h : noTripleWs l) : p4m [] l = l := by
  simpa using p4m_id l [] (by simp) (by simp) (by simpa using h)

theorem p4m_noTriple (l : List Char) : ∀ buf : List Char,
    (∀ c ∈ buf, jsWs c = true) → noTripleWs (p4m buf l) := by
  induction l with
  | nil =>
    intro buf _
    simp only [p4m]
    split
    · trivial
    · rename_i h3
      exact noTripleWs_short buf.reverse (by simp; omega)
  | cons c rest ih =>
    intro buf hbuf
    by_cases hc : jsWs c
    · have step : p4m buf (c :: rest) = p4m (c :: buf) rest := by
        simp only [p4m, hc, if_true]
      rw [step]
      exact ih (c :: buf)
        (by intro d hd; rcases List.mem_cons.mp hd with h1 | h2
            · exact h1 ▸ hc
            · exact hbuf d h2)
    · have hc2 : jsWs c = false := by simpa using hc
      have step : p4m buf (c :: rest) =
          (if 3 ≤ buf.length then [' ', ' '] else buf.reverse) ++ c :: p4m [] rest := by
        simp only [p4m]
        rw [if_neg hc]
      rw [step]
      have hrec : noTripleWs (c :: p4m [] rest) :=
        noTripleWs_cons_nonWs c _ hc2 (ih [] (by simp))
      split
      · exact noTripleWs_ws2 ' ' ' ' c _ hc2 hrec
      · rename_i h3
        match buf, h3 with
        | [], _ => exact hrec
        | [b1], _ => exact noTripleWs_ws1 b1 c _ hc2 hrec
        | [b1, b2], _ => exact noTripleWs_ws2 b2 b1 c _ hc2 hrec
        | b1 :: b2 :: b3 :: rest2, h3 =>
          exact absurd (by simp : 3 ≤ (b1 :: b2 :: b3 :: rest2).length) h3

theorem p4m_mem (l : List Char) : ∀ buf : List Char, ∀ c ∈ p4m buf l,
    c ∈ l ∨ c ∈ buf ∨ c = ' ' := by
  induction l with
  | nil =>
    intro buf c hc
    simp only [p4m] at hc
    split at hc
    · simp at hc
      exact Or.inr (Or.inr hc)
    · exact Or.inr (Or.inl (List.mem_reverse.mp hc))
  | cons a rest ih =>
    intro buf c hc
    by_cases ha : jsWs a
    · rw [show p4m buf (a :: rest) = p4m (a :: buf) rest by
        simp only [p4m]; rw [if_pos ha]] at hc
      rcases ih (a :: buf) c hc with h | h | h
      · exact Or.inl (List.mem_cons_of_mem a h)
      · rcases List.mem_cons.mp h with h1 | h2
        · exact Or.inl (h1 ▸ List.mem_cons_self a rest)
        · exact Or.inr (Or.inl h2)
      · exact Or.inr (Or.inr h)
    · rw [show p4m buf (a :: rest) =
          (if 3 ≤ buf.length then [' ', ' '] else buf.reverse) ++ a :: p4m [] rest by
        simp only [p4m]; rw [if_neg ha]] at hc
      rcases List.mem_append.mp hc with h | h
      · split at h
        · simp at h
          exact Or.inr (Or.inr h)
        · exact Or.inr (Or.inl (List.mem_reverse.mp h))
      · rcases List.mem_cons.mp h with h1 | h2
        · exact Or.inl (h1 ▸ List.mem_cons_self a rest)
        · rcases ih [] c h2 with h | h | h
          · exact Or.inl (List.mem_cons_of_mem a h)
          · simp at h
          · exact Or.inr (Or.inr h)

/-! ### Line splitting, trimming, capture and classifier lemmas -/

theorem splitLines_noNl (l : List Char) (h : ∀ c ∈ l, c ≠ '\n') :
    splitLines l = [l] := by
  induction l with
  | nil => rfl
  | cons c rest ih =>
    have hc : (c == '\n') = false :=
      beq_eq_false_iff_ne.mpr (h c (List.mem_cons_self c rest))
    simp [splitLines, hc, ih fun d hd => h d (List.mem_cons_of_mem c hd)]

theorem splitLines_append (l rest : List Char) (h : ∀ c ∈ l, c ≠ '\n') :
    splitLines (l ++ '\n' :: rest) = l :: splitLines rest := by
  induction l with
  | nil => simp [splitLines]
  | cons c l2 ih =>
    have hc : (c == '\n') = false :=
      beq_eq_false_iff_ne.mpr (h c (List.mem_cons_self c l2))
    simp [splitLines, hc, ih fun d hd => h d (List.mem_cons_of_mem c hd)]

theorem lastNonWs_cons (c : Char) (l : List Char) (h : l ≠ []) :
    lastNonWs (c :: l) = lastNonWs l := by
  cases l with
  | nil => exact absurd rfl h
  | cons d rest => rfl

theorem lastNonWs_of_noWs (l : List Char) (h : ∀ c ∈ l, jsWs c = false)
    (hne : l ≠ []) : lastNonWs l := by
  induction l with
  | nil => exact absurd rfl hne
  | cons c rest ih =>
    cases rest with
    | nil => exact h c (by simp)
    | cons d rest2 =>
      rw [lastNonWs_cons c _ (by simp)]
      exact ih (fun d2 hd2 => h d2 (List.mem_cons_of_mem c hd2)) (by simp)

theorem lastNonWs_append (l1 l2 : List Char) (h : lastNonWs l2) (hne : l2 ≠ []) :
    lastNonWs (l1 ++ l2) := by
  induction l1 with
  | nil => exact h
  | cons c t ih =>
    rw [List.cons_append,
      lastNonWs_cons c _ (fun he => hne (List.append_eq_nil.mp he).2)]
    exact ih

theorem trimL_eq_self (c : Char) (rest : List Char) (hc : jsWs c = false)
    (h : lastNonWs (c :: rest)) : trimL (c :: rest) = c :: rest := by
  unfold trimL
  rw [List.dropWhile_cons, if_neg (by simp [hc])]
  exact dropTrailWs_eq_self _ h

theorem captureAfterWs_space (x : Char) (l2 : List Char) (hx : jsWs x = false) :
    captureAfterWs (' ' :: x :: l2) = some (x :: l2) := by
  have hspace : jsWs ' ' = true := rfl
  simp [captureAfterWs, List.takeWhile_cons, List.dropWhile_cons, hx, hspace]

theorem matchBoldHeader_noStar (t : List Char) (h : ∀ c ∈ t, c ≠ '*') :
    matchBoldHeader t = none := by
  match t with
  | [] => rfl
  | [c] => rfl
  | c1 :: c2 :: rest =>
    have h1 : c1 ≠ '*' := h c1 (by simp)
    simp [matchBoldHeader, h1]

theorem matchAstBullet_noStar (t : List Char) (h : ∀ c ∈ t, c ≠ '*') :
    matchAstBullet t = none := by
  match t with
  | [] => rfl
  | c :: rest =>
    have h1 : c ≠ '*' := h c (by simp)
    simp [matchAstBullet, h1]

theorem stripLeadStarsWs_noStar (t : List Char) (h : ∀ c ∈ t, c ≠ '*') :
    stripLeadStarsWs t = t := by
  cases t with
  | nil => rfl
  | cons c rest =>
    have h1 : c ≠ '*' := h c (by simp)
    simp [stripLeadStarsWs, h1]

theorem stripTrailStars_noStar (t : List Char) (h : ∀ c ∈ t, c ≠ '*') :
    stripTrailStars t = t := by
  unfold stripTrailStars
  have hdw : t.reverse.dropWhile (fun d => d == '*') = t.reverse := by
    cases hr : t.reverse with
    | nil => rfl
    | cons d rs =>
      rw [List.dropWhile_cons, if_neg]
      intro hd
      have hdm : d ∈ t := List.mem_reverse.mp (by rw [hr]; simp)
      exact h d hdm (by simpa using hd)
  rw [hdw, List.reverse_reverse]

theorem stripTrailWsStars_noStar (t : List Char) (h : ∀ c ∈ t, c ≠ '*') :
    stripTrailWsStars t = t := by
  unfold stripTrailWsStars
  cases hr : t.reverse with
  | nil => rfl
  | cons d rs =>
    have hd : d ≠ '*' := h d (List.mem_reverse.mp (by rw [hr]; simp))
    simp [hd]

theorem paragraphText_noStar (t : List Char) (h : ∀ c ∈ t, c ≠ '*') :
    paragraphText t = t := by
  unfold paragraphText
  rw [stripLeadStarsWs_noStar t h, stripTrailWsStars_noStar t h]

theorem bulletItemText_noStar (t : List Char) (h : ∀ c ∈ t, c ≠ '*') :
    bulletItemText t = t := by
  unfold bulletItemText
  rw [stripLeadStarsWs_noStar t h, stripTrailStars_noStar t h]

theorem flushList_items (st : FmtState) : (flushList st).items = [] := by
  unfold flushList
  split
  · rename_i h
    simpa using h
  · rfl

theorem flushList_of_empty (st : FmtState) (h : st.items = []) :
    flushList st = st := by
  simp [flushList, h]

/-! ### Dispatch lemmas for `processLine` -/

theorem processLine_blank (st : FmtState) (line : List Char)
    (h : trimL line = []) : processLine st line = flushList st := by
  simp [processLine, h]

theorem processLine_eq_bullet (st : FmtState) (line t cap : List Char)
    (ht : trimL line = t) (htne : t.isEmpty = false)
    (h2 : matchH2 t = none) (h3 : matchH3 t = none)
    (hbh : matchBoldHeader t = none) (hb : matchBullet t = some cap) :
    processLine st line =
      if st.isInList then { st with items := st.items ++ [bulletItemText cap] }
      else { elems := (flushList st).elems,
             items := (flushList st).items ++ [bulletItemText cap],
             isInList := true, listType := .bullet } := by
  simp only [processLine, ht, htne, Bool.false_eq_true, if_false, h2, h3, hbh, hb,
    Option.orElse]
  cases hIn : st.isInList <;> simp [hIn]

theorem processLine_eq_numbered (st : FmtState) (line t cap : List Char)
    (ht : trimL line = t) (htne : t.isEmpty = false)
    (h2 : matchH2 t = none) (h3 : matchH3 t = none)
    (hbh : matchBoldHeader t = none) (hb : matchBullet t = none)
    (hab : matchAstBullet t = none) (hn : matchNumbered t = some cap) :
    processLine st line =
      if st.isInList then { st with items := st.items ++ [cap] }
      else { elems := (flushList st).elems,
             items := (flushList st).items ++ [cap],
             isInList := true, listType := .numbered } := by
  simp only [processLine, ht, htne, Bool.false_eq_true, if_false, h2, h3, hbh, hb, hab,
    Option.orElse, hn]
  cases hIn : st.isInList <;> simp [hIn]

theorem processLine_eq_paragraph (st : FmtState) (line t : List Char)
    (ht : trimL line = t) (htne : t.isEmpty = false)
    (h2 : matchH2 t = none) (h3 : matchH3 t = none)
    (hbh : matchBoldHeader t = none) (hb : matchBullet t = none)
    (hab : matchAstBullet t = none) (hn : matchNumbered t = none) :
    processLine st line =
      if (paragraphText t).isEmpty then flushList st
      else { flushList st with
             elems := (flushList st).elems ++
               [.paragraph (formatInlineText (paragraphText t))] } := by
  simp only [processLine, ht, htne, Bool.false_eq_true, if_false, h2, h3, hbh, hb, hab,
    Option.orElse, hn]

theorem processLine_eq_boldHeader (st : FmtState) (line t cap : List Char)
    (ht : trimL line = t) (htne : t.isEmpty = false)
    (h2 : matchH2 t = none) (h3 : matchH3 t = none)
    (hbh : matchBoldHeader t = some cap) :
    processLine st line =
      { flushList st with
        elems := (flushList st).elems ++
          [.heading 3 [.text (String.mk (cap.filter (fun c => !(c == '*'))))]] } := by
  simp only [processLine, ht, htne, Bool.false_eq_true, if_false, h2, h3, hbh]

/-! ### Evaluation of the classifiers on marker-shaped lines -/

theorem takeWhile_append_of_all (p : Char → Bool) (l rest : List Char)
    (h : ∀ c ∈ l, p c = true) :
    (l ++ rest).takeWhile p = l ++ rest.takeWhile p := by
  induction l with
  | nil => rfl
  | cons c l2 ih =>
    rw [List.cons_append, List.takeWhile_cons, if_pos (h c (List.mem_cons_self c l2)),
      ih fun d hd => h d (List.mem_cons_of_mem c hd)]
    rfl

theorem dropWhile_append_of_all (p : Char → Bool) (l rest : List Char)
    (h : ∀ c ∈ l, p c = true) :
    (l ++ rest).dropWhile p = rest.dropWhile p := by
  induction l with
  | nil => rfl
  | cons c l2 ih =>
    rw [List.cons_append, List.dropWhile_cons, if_pos (h c (List.mem_cons_self c l2))]
    exact ih fun d hd => h d (List.mem_cons_of_mem c hd)

theorem trimL_bulletLine (l : List Char) (hl : plainItem l) :
    trimL (bulletLine l) = '-' :: ' ' :: l := by
  obtain ⟨hne, hpc⟩ := hl
  refine trimL_eq_self '-' (' ' :: l) rfl ?_
  rw [lastNonWs_cons '-' _ (by simp), lastNonWs_cons ' ' _ hne]
  exact lastNonWs_of_noWs l (fun c hc => (hpc c hc).2.2) hne

theorem trimL_numberedLine (l : List Char) (hl : plainItem l) :
    trimL ('1' :: '.' :: ' ' :: l) = '1' :: '.' :: ' ' :: l := by
  obtain ⟨hne, hpc⟩ := hl
  refine trimL_eq_self '1' ('.' :: ' ' :: l) rfl ?_
  rw [lastNonWs_cons '1' _ (by simp), lastNonWs_cons '.' _ (by simp),
    lastNonWs_cons ' ' _ hne]
  exact lastNonWs_of_noWs l (fun c hc => (hpc c hc).2.2) hne

theorem matchH2_dash (rest : List Char) : matchH2 ('-' :: rest) = none := by
  cases rest <;> rfl

theorem matchH3_dash (rest : List Char) : matchH3 ('-' :: rest) = none := by
  rcases rest with _ | ⟨c2, _ | ⟨c3, r⟩⟩ <;> rfl

theorem matchBoldHeader_dash (rest : List Char) :
    matchBoldHeader ('-' :: rest) = none := by
  cases rest <;> rfl

theorem matchBullet_dash (x : Char) (l2 : List Char) (hx : jsWs x = false) :
    matchBullet ('-' :: ' ' :: x :: l2) = some (x :: l2) := by
  have h : matchBullet ('-' :: ' ' :: x :: l2) = captureAfterWs (' ' :: x :: l2) := rfl
  rw [h, captureAfterWs_space x l2 hx]

theorem matchH2_one (rest : List Char) : matchH2 ('1' :: rest) = none := by
  cases rest <;> rfl

theorem matchH3_one (rest : List Char) : matchH3 ('1' :: rest) = none := by
  rcases rest with _ | ⟨c2, _ | ⟨c3, r⟩⟩ <;> rfl

theorem matchBoldHeader_one (rest : List Char) :
    matchBoldHeader ('1' :: rest) = none := by
  cases rest <;> rfl

theorem matchBullet_one (rest : List Char) : matchBullet ('1' :: rest) = none := rfl

theorem matchAstBullet_one (rest : List Char) :
    matchAstBullet ('1' :: rest) = none := rfl

theorem matchNumbered_one_dot (x : Char) (l2 : List Char) (hx : jsWs x = false) :
    matchNumbered ('1' :: '.' :: ' ' :: x :: l2) = some (x :: l2) := by
  have h : matchNumbered ('1' :: '.' :: ' ' :: x :: l2) =
      captureAfterWs (' ' :: x :: l2) := rfl
  rw [h, captureAfterWs_space x l2 hx]

/-! ### Processing of single marker lines -/

theorem processLine_bulletLine (st : FmtState) (l : List Char) (hl : plainItem l) :
    processLine st (bulletLine l) =
      if st.isInList then { st with items := st.items ++ [l] }
      else { elems := (flushList st).elems, items := [l],
             isInList := true, listType := .bullet } := by
  obtain ⟨hne, hpc⟩ := hl
  obtain ⟨x, l2, rfl⟩ := List.exists_cons_of_ne_nil hne
  have hx : jsWs x = false := (hpc x (by simp)).2.2
  have hstar : ∀ c ∈ x :: l2, c ≠ '*' := fun c hc => (hpc c hc).1
  rw [processLine_eq_bullet st (bulletLine (x :: l2)) ('-' :: ' ' :: x :: l2) (x :: l2)
    (trimL_bulletLine (x :: l2) ⟨hne, hpc⟩) rfl
    (matchH2_dash _) (matchH3_dash _) (matchBoldHeader_dash _)
    (matchBullet_dash x l2 hx)]
  rw [bulletItemText_noStar _ hstar]
  cases hIn : st.isInList <;> simp [hIn, flushList_items]

theorem processLine_numberedLine (st : FmtState) (l : List Char) (hl : plainItem l) :
    processLine st ('1' :: '.' :: ' ' :: l) =
      if st.isInList then { st with items := st.items ++ [l] }
      else { elems := (flushList st).elems, items := [l],
             isInList := true, listType := .numbered } := by
  obtain ⟨hne, hpc⟩ := hl
  obtain ⟨x, l2, rfl⟩ := List.exists_cons_of_ne_nil hne
  have hx : jsWs x = false := (hpc x (by simp)).2.2
  rw [processLine_eq_numbered st ('1' :: '.' :: ' ' :: x :: l2)
    ('1' :: '.' :: ' ' :: x :: l2) (x :: l2)
    (trimL_numberedLine (x :: l2) ⟨hne, hpc⟩) rfl
    (matchH2_one _) (matchH3_one _) (matchBoldHeader_one _)
    (matchBullet_one _) (matchAstBullet_one _)
    (matchNumbered_one_dot x l2 hx)]
  cases hIn : st.isInList <;> simp [hIn, flushList_items]

theorem foldl_bulletLines (xs : List (List Char)) (st : FmtState)
    (hxs : ∀ l ∈ xs, plainItem l) (hin : st.isInList = true) :
    List.foldl processLine st (xs.map bulletLine) =
      { st with items := st.items ++ xs } := by
  induction xs generalizing st with
  | nil => simp
  | cons x xs ih =>
    simp only [List.map_cons, List.foldl_cons]
    rw [processLine_bulletLine st x (hxs x (by simp)), if_pos hin]
    rw [ih { st with items := st.items ++ [x] } (fun l hl => hxs l (by simp [hl])) hin]
    simp

/-! ### Joining and splitting multi-line inputs -/

theorem joinL_single (l : List Char) : joinL [l] = l := rfl

theorem joinL_cons_cons (l l2 : List Char) (rest : List (List Char)) :
    joinL (l :: l2 :: rest) = l ++ '\n' :: joinL (l2 :: rest) := rfl

theorem joinL_mem (L : List (List Char)) (c : Char) (h : c ∈ joinL L) :
    c = '\n' ∨ ∃ l ∈ L, c ∈ l := by
  induction L with
  | nil => simp [joinL] at h
  | cons l L2 ih =>
    cases L2 with
    | nil =>
      rw [joinL_single] at h
      exact Or.inr ⟨l, by simp, h⟩
    | cons l2 rest =>
      rw [joinL_cons_cons] at h
      rcases List.mem_append.mp h with h1 | h2
      · exact Or.inr ⟨l, by simp, h1⟩
      · rcases List.mem_cons.mp h2 with h3 | h4
        · exact Or.inl h3
        · rcases ih h4 with h5 | ⟨l3, hl3, hc3⟩
          · exact Or.inl h5
          · exact Or.inr ⟨l3, by simp [hl3], hc3⟩

theorem splitLines_joinL (L : List (List Char)) (hne : L ≠ [])
    (h : ∀ l ∈ L, ∀ c ∈ l, c ≠ '\n') :
    splitLines (joinL L) = L := by
  induction L with
  | nil => exact absurd rfl hne
  | cons l L2 ih =>
    cases L2 with
    | nil =>
      rw [joinL_single]
      exact splitLines_noNl l (h l (by simp))
    | cons l2 rest =>
      rw [joinL_cons_cons, splitLines_append l _ (h l (by simp)),
        ih (by simp) fun l3 hl3 c hc => h l3 (by simp [hl3]) c hc]

theorem joinL_append_ne (L1 L2 : List (List Char)) (h1 : L1 ≠ []) (h2 : L2 ≠ []) :
    joinL (L1 ++ L2) = joinL L1 ++ '\n' :: joinL L2 := by
  induction L1 with
  | nil => exact absurd rfl h1
  | cons l L1b ih =>
    cases L1b with
    | nil =>
      obtain ⟨l2, rest, rfl⟩ := List.exists_cons_of_ne_nil h2
      rw [joinL_single, List.cons_append, List.nil_append, joinL_cons_cons]
    | cons m L1c =>
      simp only [List.cons_append]
      have ih2 := ih (by simp)
      rw [List.cons_append] at ih2
      rw [joinL_cons_cons l m (L1c ++ L2), ih2, joinL_cons_cons l m L1c]
      simp

/-! ### The pre-cleaning pass fixes well-shaped multi-line inputs -/

theorem p1m_true_nl (R : List Char) :
    p1m (.normal true) ('\n' :: R) = '\n' :: p1m (.normal true) R := by
  rw [p1m.eq_def]
  exact rfl

theorem p1m_true_joinL (L : List (List Char))
    (h : ∀ l ∈ L, (∀ c ∈ l, c ≠ '\n') ∧ ∀ x t, l = x :: t → x ≠ '*') :
    p1m (.normal true) (joinL L) = joinL L := by
  induction L with
  | nil => rfl
  | cons l L2 ih =>
    cases L2 with
    | nil =>
      rw [joinL_single]
      cases l with
      | nil => rfl
      | cons x t =>
        have hx : x ≠ '*' := (h (x :: t) (by simp)).2 x t rfl
        have hxn : x ≠ '\n' := (h (x :: t) (by simp)).1 x (by simp)
        exact p1m_true_nonStarHead x t hx hxn
          fun d hd => (h (x :: t) (by simp)).1 d (by simp [hd])
    | cons l2 rest =>
      have ih2 := ih fun l3 hl3 => h l3 (List.mem_cons_of_mem l hl3)
      rw [joinL_cons_cons]
      cases l with
      | nil =>
        rw [List.nil_append, p1m_true_nl, ih2]
      | cons x t =>
        have hx : (x == '*') = false :=
          beq_eq_false_iff_ne.mpr ((h (x :: t) (by simp)).2 x t rfl)
        have hxn : (x == '\n') = false :=
          beq_eq_false_iff_ne.mpr ((h (x :: t) (by simp)).1 x (by simp))
        rw [List.cons_append, p1m_true_cons_nonStar x _ hx, hxn,
          p1m_false_append t _ (fun d hd => (h (x :: t) (by simp)).1 d (by simp [hd])),
          ih2]

theorem cleanContent_eq_self_plain (J : List Char)
    (hstar : ∀ c ∈ J, c ≠ '*') (hNT : noTripleWs J)
    (hp1 : p1m (.normal true) J = J) :
    cleanContent J = J := by
  unfold cleanContent
  rw [hp1, p2m_zero_noStar J hstar, p3s_none_noStar J hstar, p4m_zero_id J hNT,
    p5m_zero_noStar J hstar, p6m_noStar J hstar false]

/-! ### Whitespace-run shape of joined bullet lines -/

theorem NT_bulletLine_append (l S : List Char) (hl : plainItem l)
    (hS : noTripleWs S) : noTripleWs (bulletLine l ++ S) := by
  obtain ⟨hne, hpc⟩ := hl
  obtain ⟨x, l2, rfl⟩ := List.exists_cons_of_ne_nil hne
  have h1 : noTripleWs (x :: (l2 ++ S)) := by
    have h0 := noTripleWs_append_noWs (x :: l2) S (fun c hc => (hpc c hc).2.2) hS
    simpa using h0
  have h2 : noTripleWs (' ' :: x :: (l2 ++ S)) :=
    noTripleWs_ws1 ' ' x _ ((hpc x (by simp)).2.2) h1
  have h3 : noTripleWs ('-' :: ' ' :: x :: (l2 ++ S)) :=
    noTripleWs_cons_nonWs '-' _ rfl h2
  simpa [bulletLine] using h3

theorem NT_bulletLines_before (xs : List (List Char)) (hxs : xs ≠ [])
    (hall : ∀ l ∈ xs, plainItem l) (REST : List Char)
    (hREST : noTripleWs ('\n' :: REST)) :
    noTripleWs (joinL (xs.map bulletLine) ++ '\n' :: REST) := by
  induction xs with
  | nil => exact absurd rfl hxs
  | cons x xs2 ih =>
    cases xs2 with
    | nil =>
      rw [List.map_cons, List.map_nil, joinL_single]
      exact NT_bulletLine_append x ('\n' :: REST) (hall x (by simp)) hREST
    | cons x2 rest2 =>
      rw [List.map_cons, List.map_cons, joinL_cons_cons, List.append_assoc,
        List.cons_append]
      have hmain := ih (by simp) fun l hl => hall l (by simp [hl])
      have hshape : ∃ t, joinL (bulletLine x2 :: rest2.map bulletLine) ++
          '\n' :: REST = '-' :: t := by
        cases rest2 <;> exact ⟨_, rfl⟩
      obtain ⟨t, ht⟩ := hshape
      rw [List.map_cons] at hmain
      rw [ht] at hmain ⊢
      exact NT_bulletLine_append x ('\n' :: '-' :: t) (hall x (by simp))
        (noTripleWs_ws1 '\n' '-' t rfl hmain)

theorem NT_bulletJoin (ys : List (List Char)) (hys : ys ≠ [])
    (hall : ∀ l ∈ ys, plainItem l) :
    noTripleWs (joinL (ys.map bulletLine)) := by
  induction ys with
  | nil => exact absurd rfl hys
  | cons y ys2 ih =>
    cases ys2 with
    | nil =>
      rw [List.map_cons, List.map_nil, joinL_single]
      have h0 := NT_bulletLine_append y [] (hall y (by simp)) trivial
      simpa using h0
    | cons y2 rest2 =>
      rw [List.map_cons, List.map_cons, joinL_cons_cons]
      have hrest := ih (by simp) fun l hl => hall l (by simp [hl])
      rw [List.map_cons] at hrest
      have hshape : ∃ t, joinL (bulletLine y2 :: rest2.map bulletLine) = '-' :: t := by
        cases rest2 <;> exact ⟨_, rfl⟩
      obtain ⟨t, ht⟩ := hshape
      rw [ht] at hrest ⊢
      exact NT_bulletLine_append y ('\n' :: '-' :: t) (hall y (by simp))
        (noTripleWs_ws1 '\n' '-' t rfl hrest)

/-! ### Assembled facts about bullet lines and list nodes -/

theorem bulletLine_mem (l : List Char) (c : Char) (h : c ∈ bulletLine l) :
    c = '-' ∨ c = ' ' ∨ c ∈ l := by
  simpa [bulletLine] using h

theorem plainChar_ne_nl {c : Char} (h : jsWs c = false) : c ≠ '\n' := by
  intro he
  subst he
  simp [jsWs] at h

theorem bulletLine_noNl (l : List Char) (hl : plainItem l) :
    ∀ c ∈ bulletLine l, c ≠ '\n' := by
  intro c hc
  rcases bulletLine_mem l c hc with h | h | h
  · subst h; decide
  · subst h; decide
  · exact plainChar_ne_nl (hl.2 c h).2.2

theorem bulletLine_noStar (l : List Char) (hl : plainItem l) :
    ∀ c ∈ bulletLine l, c ≠ '*' := by
  intro c hc
  rcases bulletLine_mem l c hc with h | h | h
  · subst h; decide
  · subst h; decide
  · exact (hl.2 c h).1

theorem flushList_push (e : List ContentNode) (its : List (List Char)) (b : Bool)
    (ty : LType) (h : its ≠ []) :
    flushList ⟨e, its, b, ty⟩ = ⟨e ++ [listNode ty its], [], false, ty⟩ := by
  simp [flushList, h]

theorem listNode_bullet_plain (its : List (List Char)) (h : ∀ l ∈ its, plainItem l) :
    listNode .bullet its = .bulletList (its.map fun l => [.text (String.mk l)]) := by
  show ContentNode.bulletList (its.map formatInlineText) = _
  congr 1
  exact List.map_congr_left fun l hl =>
    formatInlineText_noStar l (fun c hc => ((h l hl).2 c hc).1) (h l hl).1

theorem listNode_numbered_plain (its : List (List Char))
    (h : ∀ l ∈ its, plainItem l) :
    listNode .numbered its = .numberedList (its.map fun l => [.text (String.mk l)]) := by
  show ContentNode.numberedList (its.map formatInlineText) = _
  congr 1
  exact List.map_congr_left fun l hl =>
    formatInlineText_noStar l (fun c hc => ((h l hl).2 c hc).1) (h l hl).1

/-! ### Two bullet groups separated by one blank line -/

/-- Claim C8 (amended): for bullet lines made of plain characters, a single
blank line between two groups of bullet lines flushes the open list, so the
output is two separate bullet-list nodes.  (The original claim fails when a
bullet line carries a trailing space: the whitespace-collapsing pre-pass then
merges the lines, see the counterexample.) -/
theorem format_two_bullet_groups (xs ys : List (List Char))
    (hxs : xs ≠ []) (hys : ys ≠ [])
    (hall : ∀ l ∈ xs ++ ys, plainItem l) :
    format (String.mk (joinL (xs.map bulletLine ++ [] :: ys.map bulletLine))) =
      [.bulletList (xs.map fun l => [.text (String.mk l)]),
       .bulletList (ys.map fun l => [.text (String.mk l)])] := by
  obtain ⟨x, xs2, rfl⟩ := List.exists_cons_of_ne_nil hxs
  obtain ⟨y, ys2, rfl⟩ := List.exists_cons_of_ne_nil hys
  have hallxs : ∀ l ∈ x :: xs2, plainItem l :=
    fun l hl => hall l (List.mem_append.mpr (Or.inl hl))
  have hallys : ∀ l ∈ y :: ys2, plainItem l :=
    fun l hl => hall l (List.mem_append.mpr (Or.inr hl))
  have hlineNoNl : ∀ l ∈ (x :: xs2).map bulletLine ++ [] :: (y :: ys2).map bulletLine,
      ∀ c ∈ l, c ≠ '\n' := by
    intro l hl c hc
    rcases List.mem_append.mp hl with h1 | h1
    · obtain ⟨l0, hl0, rfl⟩ := List.mem_map.mp h1
      exact bulletLine_noNl l0 (hallxs l0 hl0) c hc
    · rcases List.mem_cons.mp h1 with h2 | h2
      · subst h2; simp at hc
      · obtain ⟨l0, hl0, rfl⟩ := List.mem_map.mp h2
        exact bulletLine_noNl l0 (hallys l0 hl0) c hc
  have hsplit : splitLines
      (joinL ((x :: xs2).map bulletLine ++ [] :: (y :: ys2).map bulletLine)) =
      (x :: xs2).map bulletLine ++ [] :: (y :: ys2).map bulletLine :=
    splitLines_joinL _ (by simp) hlineNoNl
  have hstarJ : ∀ c ∈ joinL ((x :: xs2).map bulletLine ++ [] :: (y :: ys2).map bulletLine),
      c ≠ '*' := by
    intro c hc
    rcases joinL_mem _ c hc with h | ⟨l, hl, hcl⟩
    · subst h; decide
    · rcases List.mem_append.mp hl with h1 | h1
      · obtain ⟨l0, hl0, rfl⟩ := List.mem_map.mp h1
        exact bulletLine_noStar l0 (hallxs l0 hl0) c hcl
      · rcases List.mem_cons.mp h1 with h2 | h2
        · subst h2; simp at hcl
        · obtain ⟨l0, hl0, rfl⟩ := List.mem_map.mp h2
          exact bulletLine_noStar l0 (hallys l0 hl0) c hcl
  have hp1 : p1m (.normal true)
      (joinL ((x :: xs2).map bulletLine ++ [] :: (y :: ys2).map bulletLine)) =
      joinL ((x :: xs2).map bulletLine ++ [] :: (y :: ys2).map bulletLine) := by
    apply p1m_true_joinL
    intro l hl
    refine ⟨fun c hc => hlineNoNl l hl c hc, ?_⟩
    intro x0 t0 heq
    rcases List.mem_append.mp hl with h1 | h1
    · obtain ⟨l0, hl0, rfl⟩ := List.mem_map.mp h1
      have : x0 = '-' := by
        have h3 := congrArg List.head? heq
        simpa [bulletLine] using h3.symm
      subst this
      decide
    · rcases List.mem_cons.mp h1 with h2 | h2
      · subst h2; simp at heq
      · obtain ⟨l0, hl0, rfl⟩ := List.mem_map.mp h2
        have : x0 = '-' := by
          have h3 := congrArg List.head? heq
          simpa [bulletLine] using h3.symm
        subst this
        decide
  have hJ : joinL ((x :: xs2).map bulletLine ++ [] :: (y :: ys2).map bulletLine) =
      joinL ((x :: xs2).map bulletLine) ++
        '\n' :: '\n' :: joinL ((y :: ys2).map bulletLine) := by
    rw [joinL_append_ne _ _ (by simp) (by simp)]
    rfl
  have hNT : noTripleWs
      (joinL ((x :: xs2).map bulletLine ++ [] :: (y :: ys2).map bulletLine)) := by
    rw [hJ]
    apply NT_bulletLines_before _ (by simp) hallxs
    have hYNT := NT_bulletJoin _ (by simp) hallys
    have hshape : ∃ t, joinL ((y :: ys2).map bulletLine) = '-' :: t := by
      cases ys2 <;> exact ⟨_, rfl⟩
    obtain ⟨t, ht⟩ := hshape
    rw [ht] at hYNT ⊢
    exact noTripleWs_ws2 '\n' '\n' '-' t rfl hYNT
  have hclean := cleanContent_eq_self_plain _ hstarJ hNT hp1
  have hne : (joinL ((x :: xs2).map bulletLine ++ [] :: (y :: ys2).map bulletLine)).isEmpty
      = false := by
    rw [hJ]
    simp
  show (if (joinL ((x :: xs2).map bulletLine ++ [] :: (y :: ys2).map bulletLine)).isEmpty
      = true then ([] : List ContentNode)
    else formatL (joinL ((x :: xs2).map bulletLine ++ [] :: (y :: ys2).map bulletLine))) = _
  rw [hne]
  simp only [Bool.false_eq_true, if_false, formatL]
  rw [hclean, hsplit]
  have hfold1 : List.foldl processLine initState ((x :: xs2).map bulletLine) =
      ⟨[], x :: xs2, true, .bullet⟩ := by
    rw [List.map_cons, List.foldl_cons, processLine_bulletLine initState x (hallxs x (by simp)),
      if_neg (by simp [initState]), flushList_of_empty initState rfl,
      foldl_bulletLines xs2 _ (fun l hl => hallxs l (by simp [hl])) rfl]
    simp [initState]
  rw [List.foldl_append, hfold1, List.foldl_cons,
    processLine_blank _ [] rfl,
    flushList_push [] (x :: xs2) true .bullet (by simp)]
  have hfold2 : List.foldl processLine
      ⟨[] ++ [listNode .bullet (x :: xs2)], [], false, .bullet⟩
      ((y :: ys2).map bulletLine) =
      ⟨[listNode .bullet (x :: xs2)], y :: ys2, true, .bullet⟩ := by
    rw [List.map_cons, List.foldl_cons,
      processLine_bulletLine _ y (hallys y (by simp)),
      if_neg (by simp), flushList_of_empty _ rfl,
      foldl_bulletLines ys2 _ (fun l hl => hallys l (by simp [hl])) rfl]
    simp
  rw [hfold2, flushList_push [listNode .bullet (x :: xs2)] (y :: ys2) true .bullet (by simp)]
  simp only [listNode_bullet_plain (x :: xs2) hallxs, listNode_bullet_plain (y :: ys2) hallys]
  simp

/-! ### A bullet line directly after a numbered line is absorbed -/

/-- Claim C1 (amended): a bullet line immediately following a numbered item is
NOT flushed into a new list of its own type; the open numbered list absorbs it,
because the list branches only test whether a list is open, never its type. -/
theorem format_numbered_absorbs_bullet (a b : List Char)
    (ha : plainItem a) (hb : plainItem b) :
    format (String.mk ('1' :: '.' :: ' ' :: a ++ '\n' :: bulletLine b)) =
      [.numberedList [[.text (String.mk a)], [.text (String.mk b)]]] := by
  obtain ⟨hane, hapc⟩ := ha
  obtain ⟨ah, at2, rfl⟩ := List.exists_cons_of_ne_nil hane
  obtain ⟨hbne, hbpc⟩ := hb
  obtain ⟨bh, bt2, rfl⟩ := List.exists_cons_of_ne_nil hbne
  have haNoNl : ∀ c ∈ ah :: at2, c ≠ '\n' :=
    fun c hc => plainChar_ne_nl (hapc c hc).2.2
  have hbNoNl : ∀ c ∈ bh :: bt2, c ≠ '\n' :=
    fun c hc => plainChar_ne_nl (hbpc c hc).2.2
  have hA : ∀ c ∈ ('1' :: '.' :: ' ' :: (ah :: at2) : List Char), c ≠ '*' := by
    intro c hc
    rcases List.mem_cons.mp hc with h | hc
    · subst h; decide
    rcases List.mem_cons.mp hc with h | hc
    · subst h; decide
    rcases List.mem_cons.mp hc with h | hc
    · subst h; decide
    · exact (hapc c hc).1
  have hB : ∀ c ∈ ('\n' :: '-' :: ' ' :: bh :: bt2 : List Char), c ≠ '*' := by
    intro c hc
    rcases List.mem_cons.mp hc with h | hc
    · subst h; decide
    rcases List.mem_cons.mp hc with h | hc
    · subst h; decide
    rcases List.mem_cons.mp hc with h | hc
    · subst h; decide
    · exact (hbpc c hc).1
  have hstarJ : ∀ c ∈ ('1' :: '.' :: ' ' :: (ah :: at2) ++
      '\n' :: '-' :: ' ' :: bh :: bt2 : List Char), c ≠ '*' := by
    intro c hc
    rcases List.mem_append.mp hc with h | h
    · exact hA c h
    · exact hB c h
  have hp1 : p1m (.normal true)
      ('1' :: '.' :: ' ' :: (ah :: at2) ++ '\n' :: '-' :: ' ' :: bh :: bt2) =
      '1' :: '.' :: ' ' :: (ah :: at2) ++ '\n' :: '-' :: ' ' :: bh :: bt2 := by
    rw [List.cons_append, List.cons_append, List.cons_append]
    rw [p1m_true_cons_nonStar '1' _ (by decide),
      show (('1' : Char) == '\n') = false from rfl,
      p1m_false_cons '.', show (('.' : Char) == '\n') = false from rfl,
      p1m_false_cons ' ', show ((' ' : Char) == '\n') = false from rfl,
      p1m_false_append (ah :: at2) _ haNoNl,
      p1m_true_nonStarHead '-' (' ' :: bh :: bt2) (by decide) (by decide) ?_]
    intro d hd
    rcases List.mem_cons.mp hd with h | hd
    · subst h; decide
    · exact hbNoNl d hd
  have hNTbl : noTripleWs ('-' :: ' ' :: bh :: bt2) := by
    have h0 := NT_bulletLine_append (bh :: bt2) [] ⟨hbne, hbpc⟩ trivial
    simpa [bulletLine] using h0
  have hNT : noTripleWs
      ('1' :: '.' :: ' ' :: (ah :: at2) ++ '\n' :: '-' :: ' ' :: bh :: bt2) := by
    have h1 : noTripleWs ('\n' :: '-' :: ' ' :: bh :: bt2) :=
      noTripleWs_ws1 '\n' '-' (' ' :: bh :: bt2) rfl hNTbl
    have h2 : noTripleWs ((ah :: at2) ++ '\n' :: '-' :: ' ' :: bh :: bt2) :=
      noTripleWs_append_noWs _ _ (fun c hc => (hapc c hc).2.2) h1
    have h3 : noTripleWs (' ' :: ((ah :: at2) ++ '\n' :: '-' :: ' ' :: bh :: bt2)) := by
      exact noTripleWs_ws1 ' ' ah _ (hapc ah (by simp)).2.2 (by simpa using h2)
    have h4 := noTripleWs_cons_nonWs '.' _ rfl h3
    have h5 := noTripleWs_cons_nonWs '1' _ rfl h4
    simpa using h5
  have hclean := cleanContent_eq_self_plain _ hstarJ hNT hp1
  have hAnl : ∀ c ∈ ('1' :: '.' :: ' ' :: (ah :: at2) : List Char), c ≠ '\n' := by
    intro c hc
    rcases List.mem_cons.mp hc with h | hc
    · subst h; decide
    rcases List.mem_cons.mp hc with h | hc
    · subst h; decide
    rcases List.mem_cons.mp hc with h | hc
    · subst h; decide
    · exact haNoNl c hc
  have hBnl : ∀ c ∈ ('-' :: ' ' :: bh :: bt2 : List Char), c ≠ '\n' := by
    intro c hc
    rcases List.mem_cons.mp hc with h | hc
    · subst h; decide
    rcases List.mem_cons.mp hc with h | hc
    · subst h; decide
    · exact hbNoNl c hc
  have hsplit : splitLines
      ('1' :: '.' :: ' ' :: (ah :: at2) ++ '\n' :: '-' :: ' ' :: bh :: bt2) =
      ['1' :: '.' :: ' ' :: (ah :: at2), '-' :: ' ' :: bh :: bt2] := by
    rw [splitLines_append ('1' :: '.' :: ' ' :: (ah :: at2)) _ hAnl,
      splitLines_noNl ('-' :: ' ' :: bh :: bt2) hBnl]
  have hnode := listNode_numbered_plain [ah :: at2, bh :: bt2] (by
    intro l hl
    rcases List.mem_cons.mp hl with h | hl
    · subst h; exact ⟨hane, hapc⟩
    rcases List.mem_cons.mp hl with h | hl
    · subst h; exact ⟨hbne, hbpc⟩
    · simp at hl)
  show (if ('1' :: '.' :: ' ' :: (ah :: at2) ++
      '\n' :: '-' :: ' ' :: bh :: bt2).isEmpty = true then ([] : List ContentNode)
    else formatL ('1' :: '.' :: ' ' :: (ah :: at2) ++
      '\n' :: '-' :: ' ' :: bh :: bt2)) = _
  simp only [List.cons_append, List.isEmpty_cons, Bool.false_eq_true, if_false, formatL]
  simp only [List.cons_append] at hclean hsplit
  rw [hclean, hsplit, List.foldl_cons, List.foldl_cons, List.foldl_nil,
    processLine_numberedLine initState (ah :: at2) ⟨hane, hapc⟩,
    if_neg (by simp [initState]), flushList_of_empty initState rfl,
    show ('-' :: ' ' :: bh :: bt2 : List Char) = bulletLine (bh :: bt2) from rfl,
    processLine_bulletLine _ (bh :: bt2) ⟨hbne, hbpc⟩,
    if_pos rfl]
  simp [flushList, initState, hnode]

/-! ### A line that is exactly one bold-wrapped run becomes a level-3 heading -/

theorem dropWhile_eq_self_of_all (p : Char → Bool) (l : List Char)
    (h : ∀ c ∈ l, p c = false) : l.dropWhile p = l := by
  cases l with
  | nil => rfl
  | cons c rest =>
    rw [List.dropWhile_cons, if_neg (by simp [h c (List.mem_cons_self c rest)])]

theorem cleanContent_starWrapped (X : List Char) (hX : plainItem X) :
    cleanContent ('*' :: '*' :: (X ++ ['*', '*'])) =
      '*' :: '*' :: (X ++ ['*', '*']) := by
  obtain ⟨hne, hpc⟩ := hX
  obtain ⟨xh, xt, rfl⟩ := List.exists_cons_of_ne_nil hne
  have hstar : ∀ c ∈ xh :: xt, c ≠ '*' := fun c hc => (hpc c hc).1
  have hxh := hpc xh (by simp)
  have hnl : ∀ c ∈ (xh :: xt) ++ ['*', '*'], c ≠ '\n' := by
    intro c hc
    rcases List.mem_append.mp hc with h | h
    · exact plainChar_ne_nl (hpc c h).2.2
    · rcases List.mem_cons.mp h with h1 | h1
      · subst h1; decide
      · rcases List.mem_cons.mp h1 with h2 | h2
        · subst h2; decide
        · simp at h2
  have hNT : noTripleWs ('*' :: '*' :: ((xh :: xt) ++ ['*', '*'])) := by
    apply noTripleWs_of_noWs
    intro c hc
    rcases List.mem_cons.mp hc with h | hc
    · subst h; rfl
    rcases List.mem_cons.mp hc with h | hc
    · subst h; rfl
    rcases List.mem_append.mp hc with h | h
    · exact (hpc c h).2.2
    · rcases List.mem_cons.mp h with h1 | h1
      · subst h1; rfl
      · rcases List.mem_cons.mp h1 with h2 | h2
        · subst h2; rfl
        · simp at h2
  unfold cleanContent
  rw [p1m_true_star2 _ hnl]
  rw [List.cons_append, p2m_star2_cons xh _ (hpc xh (by simp)).1,
    p2m_zero_noStar_append xt _ (fun c hc => (hpc c (by simp [hc])).1), p2m_star2_end]
  rw [p3s_star2_cons xh _ (hpc xh (by simp)).1 (hpc xh (by simp)).2.2,
    p3s_none_noStar_append xt _ (fun c hc => (hpc c (by simp [hc])).1), p3s_star2_end]
  rw [show ('*' :: '*' :: xh :: (xt ++ ['*', '*'])) =
      ('*' :: '*' :: ((xh :: xt) ++ ['*', '*'])) by simp]
  rw [p4m_zero_id _ hNT]
  rw [List.cons_append, p5m_star2_cons xh _ (hpc xh (by simp)).1 (hpc xh (by simp)).2.1,
    p5m_zero_noStar_append xt _ (fun c hc => (hpc c (by simp [hc])).1), p5m_star2_end]
  have hnc : ∀ c ∈ ('*' :: '*' :: xh :: (xt ++ ['*', '*']) : List Char), c ≠ ':' := by
    intro c hc
    rcases List.mem_cons.mp hc with h | hc
    · subst h; decide
    rcases List.mem_cons.mp hc with h | hc
    · subst h; decide
    rcases List.mem_cons.mp hc with h | hc
    · subst h; exact hxh.2.1
    rcases List.mem_append.mp hc with h | h
    · exact (hpc c (by simp [h])).2.1
    · rcases List.mem_cons.mp h with h1 | h1
      · subst h1; decide
      · rcases List.mem_cons.mp h1 with h2 | h2
        · subst h2; decide
        · simp at h2
  rw [p6m_false_noColon _ hnc]

theorem matchBoldHeader_wrapped (X : List Char) (hX : plainItem X) :
    matchBoldHeader ('*' :: '*' :: (X ++ ['*', '*'])) = some X := by
  obtain ⟨hne, hpc⟩ := hX
  have hall : ∀ c ∈ X, (fun c => !(c == '*')) c = true := by
    intro c hc
    simp [beq_eq_false_iff_ne.mpr (hpc c hc).1]
  have htw : (X ++ ['*', '*']).takeWhile (fun c => !(c == '*')) = X := by
    rw [takeWhile_append_of_all _ X _ hall]
    simp
  have hdw : (X ++ ['*', '*']).dropWhile (fun c => !(c == '*')) = ['*', '*'] := by
    rw [dropWhile_append_of_all _ X _ hall]
    rfl
  simp [matchBoldHeader, htw, hdw, hne]

/-- Claim C5 (amended): a line that is exactly one emphasis-wrapped run whose
content is plain (no emphasis markers, no colons, no whitespace) and that has
NO trailing colon is emitted as a level-3 heading with the markers stripped.
Both restrictions are load-bearing: with a trailing colon the pre-cleaning
pass rewrites the closing markers first and the line falls through to a
paragraph (see the counterexample), and a colon at the edge of the wrapped
content defeats the pattern the same way (see
`bold_header_colon_inside_is_paragraph`). -/
theorem format_boldHeader_line (X : List Char) (hX : plainItem X) :
    format (String.mk ('*' :: '*' :: (X ++ ['*', '*']))) =
      [.heading 3 [.text (String.mk X)]] := by
  have hclean := cleanContent_starWrapped X hX
  obtain ⟨hne, hpc⟩ := hX
  have hnl : ∀ c ∈ ('*' :: '*' :: (X ++ ['*', '*']) : List Char), c ≠ '\n' := by
    intro c hc
    rcases List.mem_cons.mp hc with h | hc
    · subst h; decide
    rcases List.mem_cons.mp hc with h | hc
    · subst h; decide
    rcases List.mem_append.mp hc with h | h
    · exact plainChar_ne_nl (hpc c h).2.2
    · rcases List.mem_cons.mp h with h1 | h1
      · subst h1; decide
      · rcases List.mem_cons.mp h1 with h2 | h2
        · subst h2; decide
        · simp at h2
  have htrim : trimL ('*' :: '*' :: (X ++ ['*', '*'])) =
      '*' :: '*' :: (X ++ ['*', '*']) := by
    apply trimL_eq_self '*' _ rfl
    rw [lastNonWs_cons '*' _ (by simp), lastNonWs_cons '*' _ (by simp)]
    exact lastNonWs_append X ['*', '*'] rfl (by simp)
  have hfilter : X.filter (fun c => !(c == '*')) = X := by
    apply List.filter_eq_self.mpr
    intro c hc
    simp [beq_eq_false_iff_ne.mpr (hpc c hc).1]
  have hmh3 : matchH3 ('*' :: '*' :: (X ++ ['*', '*'])) = none := by
    obtain ⟨xh, xt, rfl⟩ := List.exists_cons_of_ne_nil hne
    rfl
  show (if ('*' :: '*' :: (X ++ ['*', '*'])).isEmpty = true then ([] : List ContentNode)
    else formatL ('*' :: '*' :: (X ++ ['*', '*']))) = _
  simp only [List.isEmpty_cons, Bool.false_eq_true, if_false, formatL]
  rw [hclean, splitLines_noNl _ hnl, List.foldl_cons, List.foldl_nil,
    processLine_eq_boldHeader initState _ ('*' :: '*' :: (X ++ ['*', '*'])) X htrim rfl
      rfl hmh3 (matchBoldHeader_wrapped X ⟨hne, hpc⟩),
    flushList_of_empty initState rfl, hfilter]
  rw [flushList_of_empty _ rfl]
  simp [initState]

/-! ### A bullet item wrapped in double markers loses the markers -/

theorem p2m_cons_nonStar (c : Char) (l : List Char) (hc : c ≠ '*') :
    p2m 0 (c :: l) = c :: p2m 0 l := by
  have h := p2m_zero_noStar_append [c] l (by
    intro d hd
    simp at hd
    subst hd
    exact hc)
  simpa using h

theorem p3s_cons_nonStar (c : Char) (l : List Char) (hc : c ≠ '*') :
    p3s none (c :: l) = c :: p3s none l := by
  have h := p3s_none_noStar_append [c] l (by
    intro d hd
    simp at hd
    subst hd
    exact hc)
  simpa using h

theorem p5m_cons_nonStar (c : Char) (l : List Char) (hc : c ≠ '*') :
    p5m 0 (c :: l) = c :: p5m 0 l := by
  have h := p5m_zero_noStar_append [c] l (by
    intro d hd
    simp at hd
    subst hd
    exact hc)
  simpa using h

theorem cleanContent_bulletWrapped (X : List Char) (hX : plainItem X) :
    cleanContent ('-' :: ' ' :: '*' :: '*' :: (X ++ ['*', '*'])) =
      '-' :: ' ' :: '*' :: '*' :: (X ++ ['*', '*']) := by
  obtain ⟨hne, hpc⟩ := hX
  obtain ⟨xh, xt, rfl⟩ := List.exists_cons_of_ne_nil hne
  have hxh := hpc xh (by simp)
  have hnlrest : ∀ c ∈ (' ' :: '*' :: '*' :: ((xh :: xt) ++ ['*', '*']) : List Char),
      c ≠ '\n' := by
    intro c hc
    rcases List.mem_cons.mp hc with h | hc
    · subst h; decide
    rcases List.mem_cons.mp hc with h | hc
    · subst h; decide
    rcases List.mem_cons.mp hc with h | hc
    · subst h; decide
    rcases List.mem_append.mp hc with h | h
    · exact plainChar_ne_nl (hpc c h).2.2
    · rcases List.mem_cons.mp h with h1 | h1
      · subst h1; decide
      · rcases List.mem_cons.mp h1 with h2 | h2
        · subst h2; decide
        · simp at h2
  have hNTin : noTripleWs ('*' :: '*' :: ((xh :: xt) ++ ['*', '*'])) := by
    apply noTripleWs_of_noWs
    intro c hc
    rcases List.mem_cons.mp hc with h | hc
    · subst h; rfl
    rcases List.mem_cons.mp hc with h | hc
    · subst h; rfl
    rcases List.mem_append.mp hc with h | h
    · exact (hpc c h).2.2
    · rcases List.mem_cons.mp h with h1 | h1
      · subst h1; rfl
      · rcases List.mem_cons.mp h1 with h2 | h2
        · subst h2; rfl
        · simp at h2
  have hNT : noTripleWs ('-' :: ' ' :: '*' :: '*' :: ((xh :: xt) ++ ['*', '*'])) := by
    have h1 : noTripleWs (' ' :: '*' :: '*' :: ((xh :: xt) ++ ['*', '*'])) :=
      noTripleWs_ws1 ' ' '*' _ rfl hNTin
    exact noTripleWs_cons_nonWs '-' _ rfl h1
  have hnc : ∀ c ∈ ('-' :: ' ' :: '*' :: '*' :: xh :: (xt ++ ['*', '*']) : List Char),
      c ≠ ':' := by
    intro c hc
    rcases List.mem_cons.mp hc with h | hc
    · subst h; decide
    rcases List.mem_cons.mp hc with h | hc
    · subst h; decide
    rcases List.mem_cons.mp hc with h | hc
    · subst h; decide
    rcases List.mem_cons.mp hc with h | hc
    · subst h; decide
    rcases List.mem_cons.mp hc with h | hc
    · subst h; exact hxh.2.1
    rcases List.mem_append.mp hc with h | h
    · exact (hpc c (by simp [h])).2.1
    · rcases List.mem_cons.mp h with h1 | h1
      · subst h1; decide
      · rcases List.mem_cons.mp h1 with h2 | h2
        · subst h2; decide
        · simp at h2
  unfold cleanContent
  rw [p1m_true_nonStarHead '-' _ (by decide) (by decide) hnlrest]
  rw [p2m_cons_nonStar '-' _ (by decide), p2m_cons_nonStar ' ' _ (by decide),
    List.cons_append, p2m_star2_cons xh _ hxh.1,
    p2m_zero_noStar_append xt _ (fun c hc => (hpc c (by simp [hc])).1), p2m_star2_end]
  rw [p3s_cons_nonStar '-' _ (by decide), p3s_cons_nonStar ' ' _ (by decide),
    p3s_star2_cons xh _ hxh.1 hxh.2.2,
    p3s_none_noStar_append xt _ (fun c hc => (hpc c (by simp [hc])).1), p3s_star2_end]
  rw [show ('-' :: ' ' :: '*' :: '*' :: xh :: (xt ++ ['*', '*'])) =
      ('-' :: ' ' :: '*' :: '*' :: ((xh :: xt) ++ ['*', '*'])) by simp]
  rw [p4m_zero_id _ hNT]
  rw [List.cons_append, p5m_cons_nonStar '-' _ (by decide),
    p5m_cons_nonStar ' ' _ (by decide),
    p5m_star2_cons xh _ hxh.1 hxh.2.1,
    p5m_zero_noStar_append xt _ (fun c hc => (hpc c (by simp [hc])).1), p5m_star2_end]
  rw [p6m_false_noColon _ hnc]

theorem bulletItemText_wrapped (X : List Char) (hX : plainItem X) :
    bulletItemText ('*' :: '*' :: (X ++ ['*', '*'])) = X := by
  obtain ⟨hne, hpc⟩ := hX
  obtain ⟨xh, xt, rfl⟩ := List.exists_cons_of_ne_nil hne
  have hxh := hpc xh (by simp)
  have hlead : stripLeadStarsWs ('*' :: '*' :: ((xh :: xt) ++ ['*', '*'])) =
      (xh :: xt) ++ ['*', '*'] := by
    have e1 : stripLeadStarsWs ('*' :: '*' :: ((xh :: xt) ++ ['*', '*'])) =
        (('*' :: ((xh :: xt) ++ ['*', '*'])).dropWhile
          (fun d => d == '*')).dropWhile jsWs := rfl
    rw [e1, List.dropWhile_cons, if_pos (by rfl), List.cons_append,
      List.dropWhile_cons, if_neg (by simp [beq_eq_false_iff_ne.mpr hxh.1]),
      List.dropWhile_cons, if_neg (by simp [hxh.2.2])]
  have htrail : stripTrailStars ((xh :: xt) ++ ['*', '*']) = xh :: xt := by
    unfold stripTrailStars
    rw [List.reverse_append]
    rw [show (['*', '*'] : List Char).reverse = ['*', '*'] from rfl]
    rw [List.cons_append, List.cons_append, List.nil_append]
    rw [List.dropWhile_cons, if_pos (by rfl), List.dropWhile_cons, if_pos (by rfl)]
    rw [dropWhile_eq_self_of_all _ _ (by
      intro c hc
      have hcm : c ∈ xh :: xt := List.mem_reverse.mp hc
      simp [beq_eq_false_iff_ne.mpr (hpc c hcm).1])]
    simp
  unfold bulletItemText
  rw [hlead, htrail]

/-- Claim C10: a bullet item whose content is entirely wrapped in double
emphasis markers is emitted as a plain item: the leading and trailing marker
runs are stripped from the item text before span parsing. -/
theorem format_bullet_strips_wrapping (X : List Char) (hX : plainItem X) :
    format (String.mk ('-' :: ' ' :: '*' :: '*' :: (X ++ ['*', '*']))) =
      [.bulletList [[.text (String.mk X)]]] := by
  have hclean := cleanContent_bulletWrapped X hX
  obtain ⟨hne, hpc⟩ := hX
  have hnl : ∀ c ∈ ('-' :: ' ' :: '*' :: '*' :: (X ++ ['*', '*']) : List Char),
      c ≠ '\n' := by
    intro c hc
    rcases List.mem_cons.mp hc with h | hc
    · subst h; decide
    rcases List.mem_cons.mp hc with h | hc
    · subst h; decide
    rcases List.mem_cons.mp hc with h | hc
    · subst h; decide
    rcases List.mem_cons.mp hc with h | hc
    · subst h; decide
    rcases List.mem_append.mp hc with h | h
    · exact plainChar_ne_nl (hpc c h).2.2
    · rcases List.mem_cons.mp h with h1 | h1
      · subst h1; decide
      · rcases List.mem_cons.mp h1 with h2 | h2
        · subst h2; decide
        · simp at h2
  have htrim : trimL ('-' :: ' ' :: '*' :: '*' :: (X ++ ['*', '*'])) =
      '-' :: ' ' :: '*' :: '*' :: (X ++ ['*', '*']) := by
    apply trimL_eq_self '-' _ rfl
    rw [lastNonWs_cons '-' _ (by simp), lastNonWs_cons ' ' _ (by simp),
      lastNonWs_cons '*' _ (by simp), lastNonWs_cons '*' _ (by simp)]
    exact lastNonWs_append X ['*', '*'] rfl (by simp)
  have hcap : matchBullet ('-' :: ' ' :: '*' :: '*' :: (X ++ ['*', '*'])) =
      some ('*' :: '*' :: (X ++ ['*', '*'])) := by
    have h : matchBullet ('-' :: ' ' :: '*' :: '*' :: (X ++ ['*', '*'])) =
        captureAfterWs (' ' :: '*' :: '*' :: (X ++ ['*', '*'])) := rfl
    rw [h, captureAfterWs_space '*' _ rfl]
  show (if ('-' :: ' ' :: '*' :: '*' :: (X ++ ['*', '*'])).isEmpty = true
      then ([] : List ContentNode)
    else formatL ('-' :: ' ' :: '*' :: '*' :: (X ++ ['*', '*']))) = _
  simp only [List.isEmpty_cons, Bool.false_eq_true, if_false, formatL]
  rw [hclean, splitLines_noNl _ hnl, List.foldl_cons, List.foldl_nil,
    processLine_eq_bullet initState _ ('-' :: ' ' :: '*' :: '*' :: (X ++ ['*', '*']))
      ('*' :: '*' :: (X ++ ['*', '*'])) htrim rfl
      (matchH2_dash _) (matchH3_dash _) (matchBoldHeader_dash _) hcap,
    if_neg (by simp [initState]),
    bulletItemText_wrapped X ⟨hne, hpc⟩,
    flushList_of_empty initState rfl]
  simp only [show initState.items = [] from rfl, show initState.elems = [] from rfl,
    List.nil_append]
  rw [flushList_push [] [X] true .bullet (by simp)]
  rw [listNode_bullet_plain [X] (by
    intro l hl
    simp at hl
    subst hl
    exact ⟨hne, hpc⟩)]
  simp [initState]

/-! ### Plain single-line inputs round-trip through the formatter -/

theorem dropWhile_head_not (p : Char → Bool) (l : List Char) (c : Char)
    (r : List Char) (h : l.dropWhile p = c :: r) : p c = false := by
  induction l with
  | nil => simp at h
  | cons a t ih =>
    rw [List.dropWhile_cons] at h
    by_cases hp : p a = true
    · rw [if_pos hp] at h
      exact ih h
    · rw [if_neg hp] at h
      cases h
      simpa using hp

/-- Claim C9: for a non-empty single-line input with no emphasis markers,
formatting yields a single paragraph whose reconstructed text, formatted again,
yields the same single-paragraph result (round-trip fixed point). -/
theorem format_plain_roundtrip (s : String)
    (hne : s.data ≠ [])
    (hstar : ∀ c ∈ s.data, c ≠ '*')
    (hnl : ∀ c ∈ s.data, c ≠ '\n')
    (hu : trimL (cleanContent s.data) ≠ [])
    (h2 : matchH2 (trimL (cleanContent s.data)) = none)
    (h3 : matchH3 (trimL (cleanContent s.data)) = none)
    (hb : matchBullet (trimL (cleanContent s.data)) = none)
    (hnum : matchNumbered (trimL (cleanContent s.data)) = none) :
    format s = [.paragraph [.text (String.mk (trimL (cleanContent s.data)))]] ∧
    format (String.mk (trimL (cleanContent s.data))) =
      [.paragraph [.text (String.mk (trimL (cleanContent s.data)))]] := by
  have hstarW : ∀ c ∈ p4m [] s.data, c ≠ '*' := by
    intro c hc
    rcases p4m_mem s.data [] c hc with h | h | h
    · exact hstar c h
    · simp at h
    · subst h; decide
  have hnlW : ∀ c ∈ p4m [] s.data, c ≠ '\n' := by
    intro c hc
    rcases p4m_mem s.data [] c hc with h | h | h
    · exact hnl c h
    · simp at h
    · subst h; decide
  have hcw : cleanContent s.data = p4m [] s.data := by
    obtain ⟨c0, r0, hs0⟩ := List.exists_cons_of_ne_nil hne
    unfold cleanContent
    rw [show p1m (.normal true) s.data = s.data by
        rw [hs0]
        exact p1m_true_nonStarHead c0 r0 (hstar c0 (by rw [hs0]; simp))
          (hnl c0 (by rw [hs0]; simp))
          (fun d hd => hnl d (by rw [hs0]; simp [hd])),
      p2m_zero_noStar _ hstar, p3s_none_noStar _ hstar,
      p5m_zero_noStar _ hstarW, p6m_noStar _ hstarW false]
  rw [hcw] at hu h2 h3 hb hnum ⊢
  have hstarU : ∀ c ∈ trimL (p4m [] s.data), c ≠ '*' := by
    intro c hc
    have h1 : c ∈ (p4m [] s.data).dropWhile jsWs := dropTrailWs_subset _ c hc
    exact hstarW c ((List.dropWhile_sublist jsWs).subset h1)
  have hnlU : ∀ c ∈ trimL (p4m [] s.data), c ≠ '\n' := by
    intro c hc
    have h1 : c ∈ (p4m [] s.data).dropWhile jsWs := dropTrailWs_subset _ c hc
    exact hnlW c ((List.dropWhile_sublist jsWs).subset h1)
  have hbh : matchBoldHeader (trimL (p4m [] s.data)) = none :=
    matchBoldHeader_noStar _ hstarU
  have hab : matchAstBullet (trimL (p4m [] s.data)) = none :=
    matchAstBullet_noStar _ hstarU
  have hie : (trimL (p4m [] s.data)).isEmpty = false := by
    cases ht : trimL (p4m [] s.data) with
    | nil => exact absurd ht hu
    | cons a b => rfl
  have hpt : paragraphText (trimL (p4m [] s.data)) = trimL (p4m [] s.data) :=
    paragraphText_noStar _ hstarU
  have hnode : formatInlineText (trimL (p4m [] s.data)) =
      [.text (String.mk (trimL (p4m [] s.data)))] :=
    formatInlineText_noStar _ hstarU hu
  have hformatOnce : ∀ v : List Char, cleanContent v = p4m [] s.data →
      v.isEmpty = false →
      formatL v = [.paragraph [.text (String.mk (trimL (p4m [] s.data)))]] := by
    intro v hv hvne
    simp only [formatL]
    rw [hv, splitLines_noNl _ hnlW, List.foldl_cons, List.foldl_nil,
      processLine_eq_paragraph initState _ (trimL (p4m [] s.data)) rfl hie h2 h3 hbh hb
        hab hnum,
      hpt, if_neg (by simp [hie])]
    rw [flushList_of_empty initState rfl, hnode]
    rw [flushList_of_empty _ rfl]
    simp [initState]
  constructor
  · have hie0 : s.data.isEmpty = false := by
      cases hs : s.data with
      | nil => exact absurd hs hne
      | cons a b => rfl
    show (if s.data.isEmpty = true then ([] : List ContentNode) else formatL s.data) = _
    rw [hie0]
    simp only [Bool.false_eq_true, if_false]
    exact hformatOnce s.data hcw hie0
  · -- the reconstructed text is itself a fixed point
    have hNTw : noTripleWs (p4m [] s.data) := p4m_noTriple s.data [] (by simp)
    have hNTu : noTripleWs (trimL (p4m [] s.data)) := by
      have hNTv : noTripleWs ((p4m [] s.data).dropWhile jsWs) :=
        noTripleWs_dropWhile jsWs _ hNTw
      obtain ⟨t, htv⟩ := dropTrailWs_prefix ((p4m [] s.data).dropWhile jsWs)
      exact noTripleWs_prefix _ t (htv ▸ hNTv)
    have hp1u : p1m (.normal true) (trimL (p4m [] s.data)) =
        trimL (p4m [] s.data) := by
      obtain ⟨u0, ur, huc⟩ := List.exists_cons_of_ne_nil hu
      rw [huc]
      exact p1m_true_nonStarHead u0 ur (hstarU u0 (by rw [huc]; simp))
        (hnlU u0 (by rw [huc]; simp))
        (fun d hd => hnlU d (by rw [huc]; simp [hd]))
    have hcleanU : cleanContent (trimL (p4m [] s.data)) = trimL (p4m [] s.data) :=
      cleanContent_eq_self_plain _ hstarU hNTu hp1u
    have htrimU : trimL (trimL (p4m [] s.data)) = trimL (p4m [] s.data) := by
      obtain ⟨u0, ur, huc⟩ := List.exists_cons_of_ne_nil hu
      have hhead : jsWs u0 = false := by
        have hh := dropTrailWs_head ((p4m [] s.data).dropWhile jsWs)
          (by exact fun he => hu he)
        rw [show dropTrailWs ((p4m [] s.data).dropWhile jsWs) =
            trimL (p4m [] s.data) from rfl, huc] at hh
        cases hv : (p4m [] s.data).dropWhile jsWs with
        | nil => rw [hv] at hh; simp at hh
        | cons v0 vr =>
          rw [hv] at hh
          simp at hh
          rw [hh]
          exact dropWhile_head_not jsWs _ v0 vr hv
      show dropTrailWs ((trimL (p4m [] s.data)).dropWhile jsWs) =
        trimL (p4m [] s.data)
      rw [huc, List.dropWhile_cons, if_neg (by simp [hhead]), ← huc]
      exact dropTrailWs_eq_self _ (dropTrailWs_lastNonWs _ (fun he => hu he))
    have hcleanTrim : cleanContent (trimL (p4m [] s.data)) = p4m [] s.data →
        True := fun _ => trivial
    -- assemble the second format call
    have hie2 : (String.mk (trimL (p4m [] s.data))).data.isEmpty = false := by
      show (trimL (p4m [] s.data)).isEmpty = false
      exact hie
    show (if (String.mk (trimL (p4m [] s.data))).data.isEmpty = true
        then ([] : List ContentNode)
      else formatL (String.mk (trimL (p4m [] s.data))).data) = _
    rw [hie2]
    simp only [Bool.false_eq_true, if_false]
    show formatL (trimL (p4m [] s.data)) = _
    simp only [formatL]
    rw [hcleanU, splitLines_noNl _ hnlU, List.foldl_cons, List.foldl_nil,
      processLine_eq_paragraph initState _ (trimL (p4m [] s.data)) htrimU hie h2 h3 hbh
        hb hab hnum,
      hpt, if_neg (by simp [hie])]
    rw [flushList_of_empty initState rfl, hnode]
    rw [flushList_of_empty _ rfl]
    simp [initState]

/-! ### The per-line accounting of `processLine` -/

theorem processLine_eq_h2 (st : FmtState) (line t cap : List Char)
    (ht : trimL line = t) (htne : t.isEmpty = false)
    (h2 : matchH2 t = some cap) :
    processLine st line =
      { flushList st with
        elems := (flushList st).elems ++ [.heading 2 (formatInlineText cap)] } := by
  simp only [processLine, ht, htne, Bool.false_eq_true, if_false, h2]

theorem processLine_eq_h3 (st : FmtState) (line t cap : List Char)
    (ht : trimL line = t) (htne : t.isEmpty = false)
    (h2 : matchH2 t = none) (h3 : matchH3 t = some cap) :
    processLine st line =
      { flushList st with
        elems := (flushList st).elems ++ [.heading 3 (formatInlineText cap)] } := by
  simp only [processLine, ht, htne, Bool.false_eq_true, if_false, h2, h3]

/-- Claim C2 (amended): after the pre-cleaning pass, every line whose trimmed
form is non-empty either appends exactly one node, is absorbed as one item of
the open list, becomes the single item of a freshly opened list, or is dropped
only because marker-stripping left it empty.  (The original claim about RAW
input lines fails: the whitespace-collapsing pre-pass can merge two non-empty
raw lines into one, see the counterexample.) -/
theorem processLine_accounting (st : FmtState) (l : List Char)
    (ht : trimL l ≠ []) :
    (∃ n, (processLine st l).elems = (flushList st).elems ++ [n] ∧
      (processLine st l).items = []) ∨
    (∃ it, (processLine st l).items = st.items ++ [it] ∧
      (processLine st l).elems = st.elems) ∨
    (∃ it, (processLine st l).items = [it] ∧
      (processLine st l).elems = (flushList st).elems) ∨
    (paragraphText (trimL l) = [] ∧ processLine st l = flushList st) := by
  have htne : (trimL l).isEmpty = false := by
    cases h : trimL l with
    | nil => exact absurd h ht
    | cons a b => rfl
  cases h2 : matchH2 (trimL l) with
  | some cap =>
    left
    rw [processLine_eq_h2 st l _ cap rfl htne h2]
    exact ⟨_, rfl, flushList_items st⟩
  | none =>
  cases h3 : matchH3 (trimL l) with
  | some cap =>
    left
    rw [processLine_eq_h3 st l _ cap rfl htne h2 h3]
    exact ⟨_, rfl, flushList_items st⟩
  | none =>
  cases hbh : matchBoldHeader (trimL l) with
  | some cap =>
    left
    rw [processLine_eq_boldHeader st l _ cap rfl htne h2 h3 hbh]
    exact ⟨_, rfl, flushList_items st⟩
  | none =>
  cases hb : matchBullet (trimL l) with
  | some cap =>
    rw [processLine_eq_bullet st l _ cap rfl htne h2 h3 hbh hb]
    cases hIn : st.isInList with
    | true =>
      right; left
      exact ⟨bulletItemText cap, rfl, rfl⟩
    | false =>
      right; right; left
      refine ⟨bulletItemText cap, ?_, rfl⟩
      show (flushList st).items ++ [bulletItemText cap] = [bulletItemText cap]
      rw [flushList_items st]
      rfl
  | none =>
  cases hab : matchAstBullet (trimL l) with
  | some cap =>
    have hor : (matchBullet (trimL l)).orElse (fun _ => matchAstBullet (trimL l)) =
        some cap := by rw [hb]; exact hab
    have hstep : processLine st l =
        if st.isInList then { st with items := st.items ++ [bulletItemText cap] }
        else { elems := (flushList st).elems,
               items := (flushList st).items ++ [bulletItemText cap],
               isInList := true, listType := .bullet } := by
      simp only [processLine, htne, Bool.false_eq_true, if_false, h2, h3, hbh, hb, hab,
        Option.orElse]
      cases hIn : st.isInList <;> simp [hIn]
    rw [hstep]
    cases hIn : st.isInList with
    | true =>
      right; left
      exact ⟨bulletItemText cap, rfl, rfl⟩
    | false =>
      right; right; left
      refine ⟨bulletItemText cap, ?_, rfl⟩
      show (flushList st).items ++ [bulletItemText cap] = [bulletItemText cap]
      rw [flushList_items st]
      rfl
  | none =>
  cases hn : matchNumbered (trimL l) with
  | some cap =>
    rw [processLine_eq_numbered st l _ cap rfl htne h2 h3 hbh hb hab hn]
    cases hIn : st.isInList with
    | true =>
      right; left
      exact ⟨cap, rfl, rfl⟩
    | false =>
      right; right; left
      refine ⟨cap, ?_, rfl⟩
      show (flushList st).items ++ [cap] = [cap]
      rw [flushList_items st]
      rfl
  | none =>
    cases hu : (paragraphText (trimL l)).isEmpty with
    | true =>
      right; right; right
      refine ⟨by simpa using hu, ?_⟩
      simp only [processLine, htne, Bool.false_eq_true, if_false, h2, h3, hbh, hb, hab,
        Option.orElse, hn, hu, if_true]
    | false =>
      left
      rw [processLine_eq_paragraph st l _ rfl htne h2 h3 hbh hb hab hn,
        if_neg (by simp [hu])]
      exact ⟨_, rfl, flushList_items st⟩

/-! ### Remaining claim theorems, counterexamples and witnesses -/

/-- Claim C6: the formatter is total: every input string evaluates to a
(possibly empty) node sequence. -/
theorem format_total (s : String) : ∃ ns : List ContentNode, format s = ns :=
  ⟨format s, rfl⟩

/-- Claim C7: the empty string and a whitespace-only string both produce an
empty node sequence. -/
theorem format_empty_and_whitespace : format "" = [] ∧ format "   " = [] := by
  exact ⟨rfl, rfl⟩

/-- Counterexample to C1 as stated: a bullet line directly after a numbered
item yields ONE numbered-list node absorbing both items, not two list nodes of
different types. -/
theorem numbered_absorbs_bullet_example :
    format "1. a\n- b" = [.numberedList [[.text "a"], [.text "b"]]] ∧
    (format "1. a\n- b").length = 1 := by
  exact ⟨rfl, rfl⟩

/-- Counterexample to C2 as stated: the whitespace-collapsing pre-pass merges
the two non-empty raw lines of `"a\n\n\nb"` into a single paragraph node. -/
theorem precleaning_merges_raw_lines :
    format "a\n\n\nb" = [.paragraph [.text "a  b"]] ∧
    (format "a\n\n\nb").length = 1 := by
  exact ⟨rfl, rfl⟩

/-- Counterexample to C3 as stated: the output paragraph is a single plain
span, not an emphasis span followed by plain text, because the pre-cleaning
pass deletes the marker run adjacent to the colon before span parsing. -/
theorem warning_line_not_split_into_spans :
    format "**Warning:** Use less water" ≠
      [.paragraph [.emph "Warning", .text ": Use less water"]] := by
  decide

/-- Claim C3 (amended): `"**Warning:** Use less water"` is not a header, and
formats as one paragraph holding the single plain span
`"Warning: Use less water"` (the colon-adjacent marker run is deleted by the
pre-cleaning pass, so no emphasis span survives). -/
theorem warning_line_formats_plain :
    format "**Warning:** Use less water" =
      [.paragraph [.text "Warning: Use less water"]] := by
  exact rfl

/-- Counterexample to C4 as stated: no emphasis span is produced, because the
run of three markers is deleted outright rather than normalized to two. -/
theorem triple_marker_not_emphasis :
    format "Plant health is ***excellent***" ≠
      [.paragraph [.text "Plant health is ", .emph "excellent"]] := by
  decide

/-- Claim C4 (amended): `"Plant health is ***excellent***"` formats as a single
plain paragraph: the `\*{3,}` pre-cleaning pass removes each triple-marker run
entirely, so no bold run remains for span parsing. -/
theorem triple_marker_removed_entirely :
    format "Plant health is ***excellent***" =
      [.paragraph [.text "Plant health is excellent"]] := by
  exact rfl

/-- Counterexample to C5 as stated: with a trailing colon the emphasis-wrapped
line is NOT emitted as a heading; the pre-cleaning pass rewrites `**:` to `:`
first, the pseudo-header pattern no longer matches, and the line becomes a
paragraph. -/
theorem bold_header_with_colon_is_paragraph :
    format "**Header**:" = [.paragraph [.text "Header:"]] ∧
    format "**Header**:" ≠ [.heading 3 [.text "Header"]] := by
  exact ⟨rfl, by decide⟩

/-- Counterexample to C8 as stated: a trailing space on a bullet line makes the
blank separator a three-whitespace run, which the pre-cleaning pass collapses;
the two bullet groups merge into ONE bullet-list node. -/
theorem trailing_space_merges_bullet_groups :
    format "- a \n\n- b" = [.bulletList [[.text "a  - b"]]] ∧
    (format "- a \n\n- b").length = 1 := by
  exact ⟨rfl, rfl⟩

theorem format_two_bullet_groups_witness :
    ([['a']] : List (List Char)) ≠ [] ∧
    format (String.mk (joinL ([['a']].map bulletLine ++
        [] :: ([['b']] : List (List Char)).map bulletLine))) =
      [.bulletList (([['a']] : List (List Char)).map fun l => [.text (String.mk l)]),
       .bulletList (([['b']] : List (List Char)).map fun l => [.text (String.mk l)])] :=
  ⟨by decide, format_two_bullet_groups [['a']] [['b']] (by decide) (by decide)
    (by decide)⟩

theorem format_numbered_absorbs_bullet_witness :
    plainItem ['a'] ∧
    format (String.mk ('1' :: '.' :: ' ' :: ['a'] ++ '\n' :: bulletLine ['b'])) =
      [.numberedList [[.text (String.mk ['a'])], [.text (String.mk ['b'])]]] :=
  ⟨by decide, format_numbered_absorbs_bullet ['a'] ['b'] (by decide) (by decide)⟩

theorem format_boldHeader_line_witness :
    plainItem ['H'] ∧
    format (String.mk ('*' :: '*' :: (['H'] ++ ['*', '*']))) =
      [.heading 3 [.text (String.mk ['H'])]] :=
  ⟨by decide, format_boldHeader_line ['H'] (by decide)⟩

theorem format_bullet_strips_wrapping_witness :
    plainItem ['i'] ∧
    format (String.mk ('-' :: ' ' :: '*' :: '*' :: (['i'] ++ ['*', '*']))) =
      [.bulletList [[.text (String.mk ['i'])]]] :=
  ⟨by decide, format_bullet_strips_wrapping ['i'] (by decide)⟩

theorem format_plain_roundtrip_witness :
    ("hi" : String).data ≠ [] ∧
    (format "hi" = [.paragraph [.text (String.mk (trimL (cleanContent ("hi" : String).data)))]] ∧
     format (String.mk (trimL (cleanContent ("hi" : String).data))) =
       [.paragraph [.text (String.mk (trimL (cleanContent ("hi" : String).data)))]]) :=
  ⟨by decide, format_plain_roundtrip "hi" (by decide) (by decide) (by decide)
    (by decide) (by decide) (by decide) (by decide) (by decide)⟩

theorem processLine_accounting_witness :
    trimL ['a'] ≠ [] ∧
    ((∃ n, (processLine initState ['a']).elems = (flushList initState).elems ++ [n] ∧
        (processLine initState ['a']).items = []) ∨
     (∃ it, (processLine initState ['a']).items = initState.items ++ [it] ∧
        (processLine initState ['a']).elems = initState.elems) ∨
     (∃ it, (processLine initState ['a']).items = [it] ∧
        (processLine initState ['a']).elems = (flushList initState).elems) ∨
     (paragraphText (trimL ['a']) = [] ∧
        processLine initState ['a'] = flushList initState)) :=
  ⟨by decide, processLine_accounting initState ['a'] (by decide)⟩

/-- The colon boundary inside the wrapped run: `"**A:**"` is one
emphasis-wrapped run with no trailing colon, yet the `:\*+` pre-cleaning pass
rewrites its closing markers and the line is emitted as a paragraph, not a
heading.  This is why the level-3-heading statement requires the wrapped
content to be colon-free. -/
theorem bold_header_colon_inside_is_paragraph :
    format "**A:**" = [.paragraph [.text "A:"]] ∧
    format "**:A**" = [.paragraph [.text ":A"]] := by
  exact ⟨rfl, rfl⟩

end SmartCrop
